import Mathlib

/-!
Verification of the helix alignment core (crates/helix-core/src/alignment.rs,
crates/helix-components/src/annotate.rs and the reverse-complement helper in
crates/helix-core/src/operations.rs) against its natural-language
specification.

Byte sequences are modelled as `List Nat` (byte values), strings as
`List Nat` (Unicode code points), `i32`/`i64` scores as `Int`, `usize`
as `Nat`, and the `f64` derived metrics as exact rationals `ℚ`.
-/

set_option maxRecDepth 400000
set_option maxHeartbeats 4000000

namespace Helix

/-- Model of `u8::to_ascii_uppercase` / `char::to_ascii_uppercase`:
only the ASCII letters `a`..`z` (97..122) are shifted down by 32. -/
def toUpper (b : Nat) : Nat := if 97 ≤ b ∧ b ≤ 122 then b - 32 else b

/-- Scoring parameters for Smith-Waterman alignment with affine gap
penalties (struct `ScoringParams`). -/
structure ScoringParams where
  match_score : Int
  mismatch_score : Int
  gap_open : Int
  gap_extend : Int
deriving DecidableEq

/-- The `Default` instance for `ScoringParams` in the source. -/
def defaultScoring : ScoringParams := ⟨2, -3, -5, -2⟩

/-- Result of a Smith-Waterman local alignment (struct `AlignmentResult`).
Field order follows the Rust struct. -/
structure AlignmentResult where
  score : Int
  target_start : Nat
  target_end : Nat
  query_start : Nat
  query_end : Nat
  matchCount : Nat
  mismatches : Nat
  gaps : Nat
  alignment_length : Nat
deriving DecidableEq

/-- Method `AlignmentResult::percent_identity`, with the `f64`
expression `matches / alignment_length * 100.0` modelled exactly over
`ℚ` (as the single fraction `matches * 100 / alignment_length`, kept in
`mkRat` form so that it evaluates). -/
def percentIdentity (r : AlignmentResult) : ℚ :=
  if r.alignment_length = 0 then 0
  else mkRat ((r.matchCount : Int) * 100) r.alignment_length

/-- Method `AlignmentResult::query_coverage`, with the `f64`
expression `(query_end - query_start) / query_len * 100.0` modelled
exactly over `ℚ`.  The subtraction `query_end - query_start` is the
`usize` (truncated `Nat`) subtraction of the source. -/
def queryCoverage (r : AlignmentResult) (query_len : Nat) : ℚ :=
  if query_len = 0 then 0
  else mkRat (((r.query_end - r.query_start : Nat) : Int) * 100) query_len

/-- Traceback direction stored per cell (enum `TraceOp`). -/
inductive TraceOp where
  | none
  | matchStep
  | gapInQuery
  | gapInTarget
deriving DecidableEq

/-- The sentinel `i32::MIN / 2` used to seed the `E`/`F` matrices. -/
def negInf : Int := -1073741824

/-- One DP cell holding the `e`, `f` and `h` scores of
`smith_waterman_local` at a fixed `(i, j)`. -/
structure Cell where
  e : Int
  f : Int
  h : Int
deriving DecidableEq

/-- A never-computed cell: `h` keeps its initial `0`, `e` and `f` keep
the `neg_inf` seed. -/
def defaultCell : Cell := ⟨negInf, negInf, 0⟩

/-- Column range `(j_start, j_end)` computed per row `i` by
`smith_waterman_local` (half-open, `cols = m + 1`).  The `isize`
arithmetic of the source acts on non-negative values only, so it is
carried out in `Nat` (with the `max 1` absorbing the truncation at 0). -/
def bandBounds (bw : Option Nat) (n m i : Nat) : Nat × Nat :=
  match bw with
  | Option.none => (1, m + 1)
  | Option.some w =>
    let center := if n ≤ m then i * m / n else i
    (max (center - w) 1, min (center + w + 1) (m + 1))

/-- Whether cell `(i, j)` is computed by the row loop: `1 ≤ i ≤ n` and
`j` inside the row band. -/
def inBand (bw : Option Nat) (n m i j : Nat) : Bool :=
  decide (1 ≤ i ∧ i ≤ n ∧ (bandBounds bw n m i).1 ≤ j ∧ j < (bandBounds bw n m i).2)

/-- The match/mismatch score contribution at cell `(i, j)`
(case-insensitive comparison of `query[i-1]` and `target[j-1]`). -/
def sVal (q t : List Nat) (P : ScoringParams) (i j : Nat) : Int :=
  if toUpper (q.getD (i - 1) 0) = toUpper (t.getD (j - 1) 0)
  then P.match_score else P.mismatch_score

/-- Compute one in-band cell from its three neighbours, following the
recurrences of `smith_waterman_local` (all three values clamp at 0). -/
def cellCalc (P : ScoringParams) (diagH upH upF leftH leftE s : Int) : Cell :=
  let e := max (max (leftH + P.gap_open + P.gap_extend) (leftE + P.gap_extend)) 0
  let f := max (max (upH + P.gap_open + P.gap_extend) (upF + P.gap_extend)) 0
  let h := max (max (max (diagH + s) e) f) 0
  ⟨e, f, h⟩

/-- Build the prefix of DP row `i` up to column `j` (inclusive), given the
previous row `prev`.  Out-of-band columns keep `defaultCell`. -/
def buildRowAux (q t : List Nat) (P : ScoringParams) (bw : Option Nat)
    (prev : List Cell) (i : Nat) : Nat → List Cell
  | 0 => [defaultCell]
  | j + 1 =>
    let r := buildRowAux q t P bw prev i j
    let c :=
      if inBand bw q.length t.length i (j + 1) then
        cellCalc P (prev.getD j defaultCell).h (prev.getD (j + 1) defaultCell).h
          (prev.getD (j + 1) defaultCell).f (r.getD j defaultCell).h
          (r.getD j defaultCell).e (sVal q t P i (j + 1))
      else defaultCell
    r ++ [c]

/-- DP row `i` of the matrices (columns `0..t.length`). -/
def matRow (q t : List Nat) (P : ScoringParams) (bw : Option Nat) : Nat → List Cell
  | 0 => List.replicate (t.length + 1) defaultCell
  | i + 1 => buildRowAux q t P bw (matRow q t P bw i) (i + 1) t.length

/-- The DP cell at `(i, j)`; rows or columns that are never written
read back as `defaultCell`, like the freshly initialised Rust vectors. -/
def cellM (q t : List Nat) (P : ScoringParams) (bw : Option Nat) (i j : Nat) : Cell :=
  (matRow q t P bw i).getD j defaultCell

/-- The whole DP matrix, rows `0..q.length`, built row by row exactly as
the Rust double loop fills its flat vectors. -/
def matFull (q t : List Nat) (P : ScoringParams) (bw : Option Nat) : List (List Cell) :=
  (List.range q.length).foldl
    (fun rows i0 => rows ++ [buildRowAux q t P bw (rows.getD i0 []) (i0 + 1) t.length])
    [List.replicate (t.length + 1) defaultCell]

/-- Cell lookup in a materialised matrix. -/
def cellAt (mat : List (List Cell)) (i j : Nat) : Cell :=
  (mat.getD i []).getD j defaultCell

/-- Running maximum tracked by the fill loop: best score so far and the
cell where the last strict improvement happened. -/
structure MaxState where
  best : Int
  bi : Nat
  bj : Nat
deriving DecidableEq

/-- The in-band columns of row `i`, in loop order. -/
def rowCells (bw : Option Nat) (n m i : Nat) : List Nat :=
  List.range' (bandBounds bw n m i).1 ((bandBounds bw n m i).2 - (bandBounds bw n m i).1)

/-- All cells visited by the double loop, in loop order. -/
def scanList (bw : Option Nat) (n m : Nat) : List (Nat × Nat) :=
  (List.range n).flatMap fun i0 => (rowCells bw n m (i0 + 1)).map fun j => (i0 + 1, j)

/-- One step of the running-maximum update: strictly larger `h` wins. -/
def maxStep (mat : List (List Cell)) (acc : MaxState) (c : Nat × Nat) : MaxState :=
  if (cellAt mat c.1 c.2).h > acc.best then ⟨(cellAt mat c.1 c.2).h, c.1, c.2⟩ else acc

/-- The global maximum score and its cell, as tracked by the fill loop
(`max_score`, `max_i`, `max_j`, starting from `(0, 0, 0)`). -/
def maxCell (q t : List Nat) (P : ScoringParams) (bw : Option Nat) : MaxState :=
  (scanList bw q.length t.length).foldl (maxStep (matFull q t P bw)) ⟨0, 0, 0⟩

/-- Traceback direction at cell `(i, j)`, as recorded by the fill loop.
Cells never computed keep `TraceOp.none`; computed cells record which
recurrence term produced `h` (diagonal first, then `F`, else `E`). -/
def traceAt (q t : List Nat) (P : ScoringParams) (bw : Option Nat)
    (mat : List (List Cell)) (i j : Nat) : TraceOp :=
  if inBand bw q.length t.length i j then
    let hv := (cellAt mat i j).h
    if hv = 0 then TraceOp.none
    else if hv = (cellAt mat (i - 1) (j - 1)).h + sVal q t P i j then TraceOp.matchStep
    else if hv = (cellAt mat i j).f then TraceOp.gapInTarget
    else TraceOp.gapInQuery
  else TraceOp.none

/-- State of the traceback loop: current cell and the three counters. -/
structure TbState where
  ci : Nat
  cj : Nat
  ma : Nat
  mm : Nat
  g : Nat
deriving DecidableEq

/-- One iteration of the traceback `while` loop: stop at the matrix
border or on a non-positive cell, otherwise follow the recorded
direction, update the counters and continue via `cont`. -/
def tbStep (q t : List Nat) (P : ScoringParams) (bw : Option Nat)
    (mat : List (List Cell)) (cont : TbState → TbState) (s : TbState) : TbState :=
  if s.ci = 0 ∨ s.cj = 0 ∨ ¬ (cellAt mat s.ci s.cj).h > 0 then s
  else
    match traceAt q t P bw mat s.ci s.cj with
    | TraceOp.matchStep =>
      if toUpper (q.getD (s.ci - 1) 0) = toUpper (t.getD (s.cj - 1) 0) then
        cont ⟨s.ci - 1, s.cj - 1, s.ma + 1, s.mm, s.g⟩
      else
        cont ⟨s.ci - 1, s.cj - 1, s.ma, s.mm + 1, s.g⟩
    | TraceOp.gapInTarget => cont ⟨s.ci - 1, s.cj, s.ma, s.mm, s.g + 1⟩
    | TraceOp.gapInQuery => cont ⟨s.ci, s.cj - 1, s.ma, s.mm, s.g + 1⟩
    | TraceOp.none => s

/-- The traceback `while` loop, run with explicit fuel.  Fuel
`ci + cj` is always enough, since every iteration decreases `ci + cj`
and the loop stops as soon as `ci = 0` or `cj = 0`. -/
def tbAux (q t : List Nat) (P : ScoringParams) (bw : Option Nat)
    (mat : List (List Cell)) : Nat → TbState → TbState
  | 0, s => s
  | fuel + 1, s => tbStep q t P bw mat (tbAux q t P bw mat fuel) s

/-- Result of the traceback loop, started at the maximum cell with all
counters at zero. -/
def traceRes (q t : List Nat) (P : ScoringParams) (bw : Option Nat) : TbState :=
  let mx := maxCell q t P bw
  tbAux q t P bw (matFull q t P bw) (mx.bi + mx.bj) ⟨mx.bi, mx.bj, 0, 0, 0⟩

/-- The populated `AlignmentResult` (fields in Rust struct order:
score, target span, query span, counters, total length). -/
def swResult (q t : List Nat) (P : ScoringParams) (bw : Option Nat) : AlignmentResult :=
  let mx := maxCell q t P bw
  let tb := traceRes q t P bw
  ⟨mx.best, tb.cj, mx.bj, tb.ci, mx.bi, tb.ma, tb.mm, tb.g, tb.ma + tb.mm + tb.g⟩

/-- Model of `smith_waterman_local`: banded Smith-Waterman local
alignment with affine gap penalties.  Returns nothing when either
sequence is empty or the best score is below `min_score`. -/
def smith_waterman_local (query target : List Nat) (P : ScoringParams)
    (band_width : Option Nat) (min_score : Int) : Option AlignmentResult :=
  if query.length = 0 ∨ target.length = 0 then Option.none
  else if (maxCell query target P band_width).best < min_score then Option.none
  else Option.some (swResult query target P band_width)

/-- Model of `complement_base` from operations.rs (on Unicode code
points; the source uppercases first and complements IUPAC codes). -/
def complement_base (c : Nat) : Nat :=
  let u := toUpper c
  if u = 65 then 84
  else if u = 84 then 65
  else if u = 71 then 67
  else if u = 67 then 71
  else if u = 82 then 89
  else if u = 89 then 82
  else if u = 83 then 83
  else if u = 87 then 87
  else if u = 75 then 77
  else if u = 77 then 75
  else if u = 66 then 86
  else if u = 86 then 66
  else if u = 68 then 72
  else if u = 72 then 68
  else if u = 78 then 78
  else u

/-- Model of `reverse_complement` from operations.rs: reverse the
character sequence and complement each character. -/
def reverse_complement (s : List Nat) : List Nat :=
  s.reverse.map complement_base

/-- UTF-8 encoding of one Unicode code point, as `String::bytes`
produces it. -/
def utf8Bytes (c : Nat) : List Nat :=
  if c < 128 then [c]
  else if c < 2048 then [192 + c / 64, 128 + c % 64]
  else if c < 65536 then [224 + c / 4096, 128 + c / 64 % 64, 128 + c % 64]
  else [240 + c / 262144, 128 + c / 4096 % 64, 128 + c / 64 % 64, 128 + c % 64]

/-- UTF-8 byte sequence of a string (list of code points), modelling
`str::as_bytes` / `String::bytes`. -/
def strBytes (s : List Nat) : List Nat := s.flatMap utf8Bytes

/-- Model of `align_both_strands`: run the aligner on the target as
given and on its reverse complement (the target bytes are read back as
chars, reverse-complemented, and re-encoded as bytes, exactly as the
source does via `String`). -/
def align_both_strands (query target : List Nat) (P : ScoringParams)
    (band_width : Option Nat) (min_score : Int) : Option (AlignmentResult × Bool) :=
  let fwd := smith_waterman_local query target P band_width min_score
  let rc_bytes := strBytes (reverse_complement target)
  let rev := smith_waterman_local query rc_bytes P band_width min_score
  match fwd, rev with
  | Option.some f, Option.some r =>
    if r.score > f.score then Option.some (r, true) else Option.some (f, false)
  | Option.some f, Option.none => Option.some (f, false)
  | Option.none, Option.some r => Option.some (r, true)
  | Option.none, Option.none => Option.none

/-- Library entry for a known biological part (struct `Component` from
helix-components; the sequence string is a list of code points). -/
structure Component where
  id : Int
  name : String
  category : String
  sequence : List Nat
  length : Nat
  description : Option String
  organism : Option String
  is_builtin : Bool
  accession : Option String
  color : Option String
deriving DecidableEq

/-- Configuration for the auto-annotation engine (struct
`AnnotationConfig`), with the `f64` thresholds modelled over `ℚ`. -/
structure AnnotationConfig where
  min_identity : ℚ
  min_coverage : ℚ
  scoring : ScoringParams
  band_width : Option Nat
  min_score : Int
deriving DecidableEq

/-- A single annotation hit (struct `AnnotationHit`). -/
structure AnnotationHit where
  component_name : String
  component_id : Int
  category : String
  target_start : Nat
  target_end : Nat
  is_reverse_complement : Bool
  percent_identity : ℚ
  query_coverage : ℚ
  alignment_score : Int
  color : Option String
deriving DecidableEq

/-- Model of `is_dna_sequence`: every character is, case-insensitively,
one of `A`, `C`, `G`, `T`. -/
def is_dna_sequence (s : List Nat) : Bool :=
  s.all fun c => decide (toUpper c = 65 ∨ toUpper c = 67 ∨ toUpper c = 71 ∨ toUpper c = 84)

/-- Model of `overlap_fraction`: the fraction of hit `a` covered by its
overlap with hit `b` (asymmetric: divided by the length of `a`). -/
def overlap_fraction (a b : AnnotationHit) : ℚ :=
  let s := max a.target_start b.target_start
  let e := min a.target_end b.target_end
  if e ≤ s then 0
  else
    let overlap_len := e - s
    let a_len := a.target_end - a.target_start
    if a_len = 0 then 0
    else mkRat (overlap_len : Int) a_len

/-- Stable insertion of `x` into a sorted list: `x` goes before the
first element it is strictly before. -/
def orderedInsert (lt : α → α → Bool) (x : α) : List α → List α
  | [] => [x]
  | y :: ys => if lt x y then x :: y :: ys else y :: orderedInsert lt x ys

/-- Model of Rust's stable slice sort (`sort_by` / `sort_by_key`) as a
stable insertion sort: elements are processed in order and each is
placed after every earlier element it is not strictly before, which is
exactly the stable order produced by the Rust sort. -/
def stableSort (lt : α → α → Bool) (l : List α) : List α :=
  l.foldl (fun acc x => orderedInsert lt x acc) []

/-- Whether a candidate hit is dominated by an already-accepted hit:
its overlap fraction with one of them exceeds one half. -/
def dominatedBy (accepted : List AnnotationHit) (hit : AnnotationHit) : Bool :=
  accepted.any fun existing => decide (overlap_fraction hit existing > mkRat 1 2)

/-- Model of `resolve_overlaps`: greedily accept hits in the given
order, discarding any candidate dominated by an accepted one, then sort
the accepted hits by `target_start`. -/
def resolve_overlaps (hits : List AnnotationHit) : List AnnotationHit :=
  let accepted := hits.foldl (fun acc hit => if dominatedBy acc hit then acc else acc ++ [hit]) []
  stableSort (fun a b => decide (a.target_start < b.target_start)) accepted

/-- The hit record built by `annotate` for one accepted alignment,
including the reverse-complement coordinate remap. -/
def mkHit (component : Component) (target_len : Nat) (alignment : AlignmentResult)
    (is_rc : Bool) (identity coverage : ℚ) : AnnotationHit :=
  let se :=
    if is_rc then (target_len - alignment.target_end, target_len - alignment.target_start)
    else (alignment.target_start, alignment.target_end)
  ⟨component.name, component.id, component.category, se.1, se.2, is_rc,
    identity, coverage, alignment.score, component.color⟩

/-- One step of the component loop in `annotate`: skip non-DNA
components, align both strands, filter by identity and coverage, and
emit a hit with resolved coordinates. -/
def annotateStep (target_bytes : List Nat) (config : AnnotationConfig)
    (acc : List AnnotationHit) (component : Component) : List AnnotationHit :=
  if ¬ is_dna_sequence component.sequence then acc
  else
    let query := strBytes component.sequence
    match align_both_strands query target_bytes config.scoring config.band_width
      config.min_score with
    | Option.none => acc
    | Option.some (alignment, is_rc) =>
      let identity := percentIdentity alignment
      let coverage := queryCoverage alignment query.length
      if config.min_identity ≤ identity ∧ config.min_coverage ≤ coverage then
        acc ++ [mkHit component target_bytes.length alignment is_rc identity coverage]
      else acc

/-- Model of `annotate`: align every component of the library against
the target (both strands), filter by identity and coverage, sort hits
by score descending and resolve overlaps.  The `is_circular` flag is
accepted and unused, as in the source. -/
def annotate (target : List Nat) (_is_circular : Bool) (components : List Component)
    (config : AnnotationConfig) : List AnnotationHit :=
  let target_bytes := strBytes target
  let hits := components.foldl (annotateStep target_bytes config) []
  resolve_overlaps (stableSort (fun a b => decide (b.alignment_score < a.alignment_score)) hits)

/-- The greedy acceptance loop of the overlap resolver, written as the
specification describes it: process candidates in order and discard a
candidate exactly when its overlap fraction with some already-accepted
hit exceeds one half. -/
def specResolve : List AnnotationHit → List AnnotationHit → List AnnotationHit
  | acc, [] => acc
  | acc, h :: rest =>
    if ∃ e ∈ acc, overlap_fraction h e > mkRat 1 2 then specResolve acc rest
    else specResolve (acc ++ [h]) rest

/-- The four result fields compared between banded and unbanded runs:
score, matches, mismatches, gaps. -/
def resFields (r : AlignmentResult) : Int × Nat × Nat × Nat :=
  (r.score, r.matchCount, r.mismatches, r.gaps)

/-!  Bridge lemmas: the materialised matrix agrees with the per-row
reference `matRow`, and the cells satisfy the Smith-Waterman
recurrence. -/

theorem length_buildRowAux (q t : List Nat) (P : ScoringParams) (bw : Option Nat)
    (prev : List Cell) (i : Nat) : ∀ j, (buildRowAux q t P bw prev i j).length = j + 1 := by
  intro j
  induction j with
  | zero => rfl
  | succ j ih => simp [buildRowAux, ih]

theorem buildRowAux_getD_mono (q t : List Nat) (P : ScoringParams) (bw : Option Nat)
    (prev : List Cell) (i : Nat) :
    ∀ jj j, j ≤ jj →
      (buildRowAux q t P bw prev i jj).getD j defaultCell =
      (buildRowAux q t P bw prev i j).getD j defaultCell := by
  intro jj
  induction jj with
  | zero =>
    intro j hj
    have : j = 0 := Nat.le_zero.mp hj
    subst this
    rfl
  | succ jj ih =>
    intro j hj
    rcases Nat.lt_or_ge j (jj + 1) with hlt | hge
    · have hlen : j < (buildRowAux q t P bw prev i jj).length := by
        rw [length_buildRowAux]; omega
      calc (buildRowAux q t P bw prev i (jj + 1)).getD j defaultCell
          = (buildRowAux q t P bw prev i jj).getD j defaultCell := by
            simp only [buildRowAux]
            simp [List.getD_eq_getElem?_getD, List.getElem?_append_left hlen]
        _ = (buildRowAux q t P bw prev i j).getD j defaultCell := ih j (by omega)
    · have : j = jj + 1 := by omega
      subst this; rfl

theorem bandLo_pos (bw : Option Nat) (n m i : Nat) : 1 ≤ (bandBounds bw n m i).1 := by
  cases bw with
  | none => simp [bandBounds]
  | some w => simp [bandBounds]

theorem bandHi_le (bw : Option Nat) (n m i : Nat) : (bandBounds bw n m i).2 ≤ m + 1 := by
  cases bw with
  | none => simp [bandBounds]
  | some w => simp [bandBounds]

theorem cellM_zero (q t : List Nat) (P : ScoringParams) (bw : Option Nat) (j : Nat) :
    cellM q t P bw 0 j = defaultCell := by
  simp only [cellM, matRow]
  rcases Nat.lt_or_ge j (t.length + 1) with h | h
  · simp [List.getD_eq_getElem?_getD, List.getElem?_replicate, h]
  · have : (List.replicate (t.length + 1) defaultCell).length ≤ j := by simp; omega
    simp [List.getD_eq_getElem?_getD, List.getElem?_eq_none this]

theorem inBand_false_of_zero (bw : Option Nat) (n m i : Nat) :
    inBand bw n m i 0 = false := by
  have h1 := bandLo_pos bw n m i
  simp only [inBand, decide_eq_false_iff_not]
  intro h
  omega

theorem inBand_false_of_gt (bw : Option Nat) (n m i j : Nat) (hj : m < j) :
    inBand bw n m i j = false := by
  have h2 := bandHi_le bw n m i
  simp only [inBand, decide_eq_false_iff_not]
  intro h
  omega

/-- The Smith-Waterman recurrence satisfied by the cells: an in-band
cell is `cellCalc` of its diagonal, upper and left neighbours, every
other cell keeps the defaults. -/
theorem cellM_succ (q t : List Nat) (P : ScoringParams) (bw : Option Nat) (i j : Nat) :
    cellM q t P bw (i + 1) j =
      (if inBand bw q.length t.length (i + 1) j then
        cellCalc P (cellM q t P bw i (j - 1)).h (cellM q t P bw i j).h
          (cellM q t P bw i j).f (cellM q t P bw (i + 1) (j - 1)).h
          (cellM q t P bw (i + 1) (j - 1)).e (sVal q t P (i + 1) j)
      else defaultCell) := by
  rcases Nat.lt_or_ge t.length j with hgt | hle
  · rw [inBand_false_of_gt bw q.length t.length (i + 1) j hgt, if_neg (by simp)]
    have hlen : (buildRowAux q t P bw (matRow q t P bw i) (i + 1) t.length).length ≤ j := by
      rw [length_buildRowAux]; omega
    simp [cellM, matRow, List.getD_eq_getElem?_getD, List.getElem?_eq_none hlen]
  · cases j with
    | zero =>
      rw [inBand_false_of_zero bw q.length t.length (i + 1), if_neg (by simp)]
      have h0 : (0 : Nat) ≤ t.length := Nat.zero_le _
      show (matRow q t P bw (i + 1)).getD 0 defaultCell = defaultCell
      rw [show matRow q t P bw (i + 1) = buildRowAux q t P bw (matRow q t P bw i) (i + 1) t.length from rfl]
      rw [buildRowAux_getD_mono q t P bw (matRow q t P bw i) (i + 1) t.length 0 h0]
      rfl
    | succ j0 =>
      show (matRow q t P bw (i + 1)).getD (j0 + 1) defaultCell = _
      rw [show matRow q t P bw (i + 1) = buildRowAux q t P bw (matRow q t P bw i) (i + 1) t.length from rfl]
      rw [buildRowAux_getD_mono q t P bw (matRow q t P bw i) (i + 1) t.length (j0 + 1) hle]
      have hr : (buildRowAux q t P bw (matRow q t P bw i) (i + 1) j0).length = j0 + 1 :=
        length_buildRowAux q t P bw (matRow q t P bw i) (i + 1) j0
      have hleft : (buildRowAux q t P bw (matRow q t P bw i) (i + 1) j0).getD j0 defaultCell =
          cellM q t P bw (i + 1) j0 := by
        rw [show cellM q t P bw (i + 1) j0 = (buildRowAux q t P bw (matRow q t P bw i) (i + 1) t.length).getD j0 defaultCell from rfl]
        rw [buildRowAux_getD_mono q t P bw (matRow q t P bw i) (i + 1) t.length j0 (by omega)]
      simp only [buildRowAux]
      rw [List.getD_eq_getElem?_getD, List.getElem?_append_right (by rw [hr])]
      simp only [hr, Nat.sub_self]
      simp only [List.getElem?_cons_zero, Option.getD_some]
      rw [hleft]
      rfl

theorem inBand_false_of_row_gt (bw : Option Nat) (n m i j : Nat) (hi : n < i) :
    inBand bw n m i j = false := by
  simp only [inBand, decide_eq_false_iff_not]
  intro h
  omega

theorem cellM_out (q t : List Nat) (P : ScoringParams) (bw : Option Nat) (i j : Nat)
    (hib : inBand bw q.length t.length i j = false) :
    cellM q t P bw i j = defaultCell := by
  cases i with
  | zero => exact cellM_zero q t P bw j
  | succ i0 => rw [cellM_succ, hib]; simp

theorem matFull_eq (q t : List Nat) (P : ScoringParams) (bw : Option Nat) :
    matFull q t P bw = (List.range (q.length + 1)).map (matRow q t P bw) := by
  have key : ∀ k,
      (List.range k).foldl
        (fun rows i0 => rows ++ [buildRowAux q t P bw (rows.getD i0 []) (i0 + 1) t.length])
        [List.replicate (t.length + 1) defaultCell] =
      (List.range (k + 1)).map (matRow q t P bw) := by
    intro k
    induction k with
    | zero => rfl
    | succ k ih =>
      rw [List.range_succ, List.foldl_append, ih]
      have hget : ((List.range (k + 1)).map (matRow q t P bw)).getD k [] =
          matRow q t P bw k := by
        rw [List.getD_eq_getElem?_getD, List.getElem?_map]
        simp [List.getElem?_range, Nat.lt_succ_self]
      simp only [List.foldl_cons, List.foldl_nil, hget]
      rw [show List.range (k + 1 + 1) = List.range (k + 1) ++ [k + 1] by
        simpa using List.range_succ (k + 1)]
      rw [List.map_append]
      rfl
  exact key q.length

theorem cellAt_matFull (q t : List Nat) (P : ScoringParams) (bw : Option Nat) (i j : Nat) :
    cellAt (matFull q t P bw) i j = cellM q t P bw i j := by
  rw [matFull_eq]
  rcases Nat.lt_or_ge q.length i with hgt | hle
  · have hlen : ((List.range (q.length + 1)).map (matRow q t P bw)).length ≤ i := by
      simp; omega
    have hnil : ((List.range (q.length + 1)).map (matRow q t P bw)).getD i [] = [] := by
      simp [List.getD_eq_getElem?_getD, List.getElem?_eq_none hlen]
    rw [cellAt, hnil]
    rw [cellM_out q t P bw i j (inBand_false_of_row_gt bw q.length t.length i j hgt)]
    rfl
  · have hget : ((List.range (q.length + 1)).map (matRow q t P bw)).getD i [] =
        matRow q t P bw i := by
      rw [List.getD_eq_getElem?_getD, List.getElem?_map]
      simp [List.getElem?_range, Nat.lt_succ_of_le hle]
    rw [cellAt, hget]
    rfl

/-!  Facts about the running-maximum fold. -/

theorem foldl_maxStep_le_init (mat : List (List Cell)) :
    ∀ (l : List (Nat × Nat)) (acc : MaxState),
      acc.best ≤ (l.foldl (maxStep mat) acc).best := by
  intro l
  induction l with
  | nil => intro acc; exact le_refl _
  | cons c cs ih =>
    intro acc
    simp only [List.foldl_cons]
    refine le_trans ?_ (ih (maxStep mat acc c))
    simp only [maxStep]
    split
    · next h => exact le_of_lt h
    · exact le_refl _

theorem foldl_maxStep_lt (mat : List (List Cell)) (V : Int) :
    ∀ (l : List (Nat × Nat)) (acc : MaxState),
      (∀ c ∈ l, (cellAt mat c.1 c.2).h < V) → acc.best < V →
      (l.foldl (maxStep mat) acc).best < V := by
  intro l
  induction l with
  | nil => intro acc _ hacc; exact hacc
  | cons c cs ih =>
    intro acc hl hacc
    simp only [List.foldl_cons]
    refine ih (maxStep mat acc c) (fun d hd => hl d (List.mem_cons_of_mem c hd)) ?_
    simp only [maxStep]
    split
    · exact hl c (List.mem_cons_self c cs)
    · exact hacc

theorem foldl_maxStep_bounds (mat : List (List Cell)) (n m : Nat) :
    ∀ (l : List (Nat × Nat)) (acc : MaxState),
      (∀ c ∈ l, c.1 ≤ n ∧ c.2 ≤ m) → acc.bi ≤ n → acc.bj ≤ m →
      (l.foldl (maxStep mat) acc).bi ≤ n ∧ (l.foldl (maxStep mat) acc).bj ≤ m := by
  intro l
  induction l with
  | nil => intro acc _ h1 h2; exact ⟨h1, h2⟩
  | cons c cs ih =>
    intro acc hl h1 h2
    simp only [List.foldl_cons]
    have hc := hl c (List.mem_cons_self c cs)
    have hrest : ∀ d ∈ cs, d.1 ≤ n ∧ d.2 ≤ m := fun d hd => hl d (List.mem_cons_of_mem c hd)
    simp only [maxStep]
    split
    · exact ih _ hrest hc.1 hc.2
    · exact ih _ hrest h1 h2

theorem scanList_mem (bw : Option Nat) (n m : Nat) :
    ∀ c ∈ scanList bw n m, 1 ≤ c.1 ∧ c.1 ≤ n ∧ 1 ≤ c.2 ∧ c.2 ≤ m := by
  intro c hc
  simp only [scanList, List.mem_flatMap] at hc
  obtain ⟨i0, hi0, hc⟩ := hc
  simp only [List.mem_map] at hc
  obtain ⟨j, hj, rfl⟩ := hc
  have hi0n : i0 < n := List.mem_range.mp hi0
  have hj2 := List.mem_range'_1.mp hj
  have hlo := bandLo_pos bw n m (i0 + 1)
  have hhi := bandHi_le bw n m (i0 + 1)
  rcases hj2 with ⟨hjlo, hjhi⟩
  refine ⟨Nat.succ_le_succ (Nat.zero_le i0), Nat.succ_le_of_lt hi0n, ?_, ?_⟩
  · omega
  · omega

theorem maxCell_best_nonneg (q t : List Nat) (P : ScoringParams) (bw : Option Nat) :
    0 ≤ (maxCell q t P bw).best :=
  foldl_maxStep_le_init (matFull q t P bw) (scanList bw q.length t.length) ⟨0, 0, 0⟩

theorem maxCell_bi_le (q t : List Nat) (P : ScoringParams) (bw : Option Nat) :
    (maxCell q t P bw).bi ≤ q.length ∧ (maxCell q t P bw).bj ≤ t.length := by
  refine foldl_maxStep_bounds (matFull q t P bw) q.length t.length
    (scanList bw q.length t.length) ⟨0, 0, 0⟩ ?_ (Nat.zero_le _) (Nat.zero_le _)
  intro c hc
  have := scanList_mem bw q.length t.length c hc
  exact ⟨this.2.1, this.2.2.2⟩

/-!  Facts about the traceback loop. -/

theorem tbAux_le (q t : List Nat) (P : ScoringParams) (bw : Option Nat)
    (mat : List (List Cell)) :
    ∀ (fuel : Nat) (s : TbState),
      (tbAux q t P bw mat fuel s).ci ≤ s.ci ∧ (tbAux q t P bw mat fuel s).cj ≤ s.cj := by
  intro fuel
  induction fuel with
  | zero => intro s; exact ⟨le_refl _, le_refl _⟩
  | succ fuel ih =>
    intro s
    show (tbStep q t P bw mat (tbAux q t P bw mat fuel) s).ci ≤ s.ci ∧
      (tbStep q t P bw mat (tbAux q t P bw mat fuel) s).cj ≤ s.cj
    unfold tbStep
    split
    · exact ⟨le_refl _, le_refl _⟩
    · split
      · split
        · have h := ih ⟨s.ci - 1, s.cj - 1, s.ma + 1, s.mm, s.g⟩
          exact ⟨le_trans h.1 (Nat.sub_le _ _), le_trans h.2 (Nat.sub_le _ _)⟩
        · have h := ih ⟨s.ci - 1, s.cj - 1, s.ma, s.mm + 1, s.g⟩
          exact ⟨le_trans h.1 (Nat.sub_le _ _), le_trans h.2 (Nat.sub_le _ _)⟩
      · have h := ih ⟨s.ci - 1, s.cj, s.ma, s.mm, s.g + 1⟩
        exact ⟨le_trans h.1 (Nat.sub_le _ _), h.2⟩
      · have h := ih ⟨s.ci, s.cj - 1, s.ma, s.mm, s.g + 1⟩
        exact ⟨h.1, le_trans h.2 (Nat.sub_le _ _)⟩
      · exact ⟨le_refl _, le_refl _⟩

/-!  Score bounds: with conventional parameters every cell value is at
most `min i j` times the match score, since a local alignment ending at
`(i, j)` contains at most `min i j` diagonal steps and every other
contribution is negative. -/

theorem sVal_le (q t : List Nat) (P : ScoringParams) (i j : Nat)
    (hmm : P.mismatch_score ≤ P.match_score) : sVal q t P i j ≤ P.match_score := by
  unfold sVal
  split
  · exact le_refl _
  · exact hmm

theorem cellM_le_bound (q t : List Nat) (P : ScoringParams) (bw : Option Nat)
    (hm : 0 < P.match_score) (hmm : P.mismatch_score < 0)
    (hgo : P.gap_open < 0) (hge : P.gap_extend < 0) :
    ∀ i j, (cellM q t P bw i j).h ≤ ((min i j : Nat) : Int) * P.match_score ∧
      (cellM q t P bw i j).e ≤ ((min i j : Nat) : Int) * P.match_score ∧
      (cellM q t P bw i j).f ≤ ((min i j : Nat) : Int) * P.match_score := by
  have hMnn : ∀ a b : Nat, (0 : Int) ≤ ((min a b : Nat) : Int) * P.match_score :=
    fun a b => mul_nonneg (Int.natCast_nonneg _) hm.le
  have hMmono : ∀ {a b c d : Nat}, min a b ≤ min c d →
      ((min a b : Nat) : Int) * P.match_score ≤ ((min c d : Nat) : Int) * P.match_score := by
    intro a b c d h
    exact mul_le_mul_of_nonneg_right (by exact_mod_cast h) hm.le
  have hneg : negInf ≤ 0 := by norm_num [negInf]
  intro i
  induction i with
  | zero =>
    intro j
    rw [cellM_zero]
    have h0 := hMnn 0 j
    exact ⟨by simpa [defaultCell] using h0,
      by simp only [defaultCell]; linarith,
      by simp only [defaultCell]; linarith⟩
  | succ i ihrow =>
    intro j
    induction j with
    | zero =>
      rw [cellM_succ]
      simp only [inBand_false_of_zero bw q.length t.length (i + 1), Bool.false_eq_true,
        if_false]
      have h0 := hMnn (i + 1) 0
      exact ⟨by simpa [defaultCell] using h0,
        by simp only [defaultCell]; linarith,
        by simp only [defaultCell]; linarith⟩
    | succ j ihcol =>
      rw [cellM_succ]
      by_cases hband : inBand bw q.length t.length (i + 1) (j + 1) = true
      · rw [if_pos hband]
        simp only [Nat.add_sub_cancel]
        have hdiag := (ihrow j).1
        have hupH := (ihrow (j + 1)).1
        have hupF := (ihrow (j + 1)).2.2
        have hleftH := ihcol.1
        have hleftE := ihcol.2.1
        have hS := sVal_le q t P (i + 1) (j + 1) (by linarith)
        have hmin1 : min (i + 1) j ≤ min (i + 1) (j + 1) :=
          min_le_min (le_refl _) (Nat.le_succ j)
        have hmin2 : min i (j + 1) ≤ min (i + 1) (j + 1) :=
          min_le_min (Nat.le_succ i) (le_refl _)
        have hmono1 := hMmono hmin1
        have hmono2 := hMmono hmin2
        have hsucc : (min (i + 1) (j + 1) : Nat) = min i j + 1 := Nat.succ_min_succ i j
        have hM00 := hMnn (i + 1) (j + 1)
        have hdiagS : (cellM q t P bw i j).h + sVal q t P (i + 1) (j + 1) ≤
            ((min (i + 1) (j + 1) : Nat) : Int) * P.match_score := by
          rw [hsucc, Nat.cast_add, Nat.cast_one]
          have : (((min i j : Nat) : Int) + 1) * P.match_score =
              ((min i j : Nat) : Int) * P.match_score + P.match_score := by ring
          rw [this]
          exact add_le_add hdiag hS
        refine ⟨?_, ?_, ?_⟩
        · show max (max (max _ _) _) 0 ≤ _
          refine max_le (max_le (max_le hdiagS ?_) ?_) hM00
          · exact max_le (max_le (by linarith) (by linarith)) hM00
          · exact max_le (max_le (by linarith) (by linarith)) hM00
        · show max (max _ _) 0 ≤ _
          exact max_le (max_le (by linarith) (by linarith)) hM00
        · show max (max _ _) 0 ≤ _
          exact max_le (max_le (by linarith) (by linarith)) hM00
      · rw [if_neg hband]
        have h0 := hMnn (i + 1) (j + 1)
        exact ⟨by simpa [defaultCell] using h0,
          by simp only [defaultCell]; linarith,
          by simp only [defaultCell]; linarith⟩

/-!  Self-alignment: for `query = target` every diagonal cell is in
band (the band centre of row `i` is exactly `i`), the diagonal carries
score `i * match_score`, and the global maximum is the bottom-right
diagonal cell. -/

theorem inBand_diag (bw : Option Nat) (L i : Nat) (h1 : 1 ≤ i) (h2 : i ≤ L) :
    inBand bw L L i i = true := by
  have hL : 0 < L := by omega
  cases bw with
  | none =>
    simp only [inBand, bandBounds, decide_eq_true_eq]
    exact ⟨h1, h2, h1, by omega⟩
  | some w =>
    simp only [inBand, bandBounds, decide_eq_true_eq]
    have hc : (if L ≤ L then i * L / L else i) = i := by
      rw [if_pos (le_refl L), Nat.mul_div_cancel i hL]
    rw [hc]
    exact ⟨h1, h2, max_le (by omega) h1, lt_min (by omega) (by omega)⟩

theorem cell_diag_self (S : List Nat) (P : ScoringParams) (bw : Option Nat)
    (hm : 0 < P.match_score) (hmm : P.mismatch_score < 0)
    (hgo : P.gap_open < 0) (hge : P.gap_extend < 0) :
    ∀ i, i ≤ S.length → (cellM S S P bw i i).h = (i : Int) * P.match_score := by
  intro i
  induction i with
  | zero =>
    intro _
    rw [cellM_zero]
    simp [defaultCell]
  | succ i ih =>
    intro hle
    have hband := inBand_diag bw S.length (i + 1) (by omega) hle
    have hih := ih (by omega)
    have hsv : sVal S S P (i + 1) (i + 1) = P.match_score := by
      unfold sVal
      rw [if_pos rfl]
    have hcell : cellM S S P bw (i + 1) (i + 1) =
        cellCalc P (cellM S S P bw i i).h (cellM S S P bw i (i + 1)).h
          (cellM S S P bw i (i + 1)).f (cellM S S P bw (i + 1) i).h
          (cellM S S P bw (i + 1) i).e (sVal S S P (i + 1) (i + 1)) := by
      rw [cellM_succ, if_pos hband]
      simp only [Nat.add_sub_cancel]
    have hbounds := cellM_le_bound S S P bw hm hmm hgo hge (i + 1) (i + 1)
    have hE : (cellM S S P bw (i + 1) (i + 1)).e ≤ ((i + 1 : Nat) : Int) * P.match_score := by
      have := hbounds.2.1
      simpa [Nat.min_self] using this
    have hF : (cellM S S P bw (i + 1) (i + 1)).f ≤ ((i + 1 : Nat) : Int) * P.match_score := by
      have := hbounds.2.2
      simpa [Nat.min_self] using this
    rw [hcell] at hE hF
    have hds : (cellM S S P bw i i).h + sVal S S P (i + 1) (i + 1) =
        ((i + 1 : Nat) : Int) * P.match_score := by
      rw [hih, hsv]
      push_cast
      ring
    rw [hcell]
    show max (max (max _ _) _) 0 = _
    apply le_antisymm
    · refine max_le (max_le (max_le (le_of_eq hds) hE) hF) ?_
      push_cast
      positivity
    · rw [← hds]
      exact le_trans (le_max_left _ _) (le_trans (le_max_left _ _) (le_max_left _ _))

/-- The bottom row of a square matrix has band bounds reaching the last
column. -/
theorem bandBounds_last_row (bw : Option Nat) (L : Nat) (hL : 1 ≤ L) :
    ∃ lo, 1 ≤ lo ∧ lo ≤ L ∧ bandBounds bw L L L = (lo, L + 1) := by
  cases bw with
  | none => exact ⟨1, le_refl 1, by omega, rfl⟩
  | some w =>
    have hc : (if L ≤ L then L * L / L else L) = L := by
      rw [if_pos (le_refl L), Nat.mul_div_cancel L (by omega)]
    refine ⟨max (L - w) 1, le_max_right _ _, max_le (by omega) (by omega), ?_⟩
    simp only [bandBounds, hc]
    rw [Nat.min_eq_right (by omega)]

/-- The scan order visits `(L, L)` last, and every earlier visited cell
is strictly above or strictly left of it. -/
theorem scanList_self_decomp (bw : Option Nat) (L : Nat) (hL : 1 ≤ L) :
    ∃ front, scanList bw L L = front ++ [(L, L)] ∧
      ∀ c ∈ front, c.1 ≤ L ∧ c.2 ≤ L ∧ min c.1 c.2 < L := by
  obtain ⟨lo, hlo1, hloL, hbb⟩ := bandBounds_last_row bw L hL
  obtain ⟨L0, rfl⟩ : ∃ L0, L = L0 + 1 := ⟨L - 1, by omega⟩
  have hsplit : scanList bw (L0 + 1) (L0 + 1) =
      (List.range L0).flatMap
        (fun i0 => (rowCells bw (L0 + 1) (L0 + 1) (i0 + 1)).map fun j => (i0 + 1, j)) ++
      (rowCells bw (L0 + 1) (L0 + 1) (L0 + 1)).map (fun j => (L0 + 1, j)) := by
    rw [scanList, List.range_succ, List.flatMap_append]
    simp
  have hrow : rowCells bw (L0 + 1) (L0 + 1) (L0 + 1) =
      List.range' lo (L0 + 1 - lo) ++ [L0 + 1] := by
    rw [rowCells, hbb]
    have h1 : L0 + 1 + 1 - lo = (L0 + 1 - lo) + 1 := by omega
    rw [h1, List.range'_1_concat]
    have h2 : lo + (L0 + 1 - lo) = L0 + 1 := by omega
    rw [h2]
  refine ⟨(List.range L0).flatMap
      (fun i0 => (rowCells bw (L0 + 1) (L0 + 1) (i0 + 1)).map fun j => (i0 + 1, j)) ++
      (List.range' lo (L0 + 1 - lo)).map (fun j => (L0 + 1, j)), ?_, ?_⟩
  · rw [hsplit, hrow, List.map_append, List.append_assoc]
    rfl
  · intro c hc
    rw [List.mem_append] at hc
    rcases hc with hc | hc
    · rw [List.mem_flatMap] at hc
      obtain ⟨i0, hi0, hc⟩ := hc
      rw [List.mem_map] at hc
      obtain ⟨j, hj, rfl⟩ := hc
      have hi0L : i0 < L0 := List.mem_range.mp hi0
      have hjb := List.mem_range'_1.mp hj
      have hhi := bandHi_le bw (L0 + 1) (L0 + 1) (i0 + 1)
      rcases hjb with ⟨hjlo, hjhi⟩
      have hrcj : j < (bandBounds bw (L0 + 1) (L0 + 1) (i0 + 1)).2 := by
        have := hjhi
        rw [rowCells] at hj
        have hjb2 := List.mem_range'_1.mp hj
        omega
      refine ⟨by omega, by omega, ?_⟩
      have : min (i0 + 1) j ≤ i0 + 1 := min_le_left _ _
      omega
    · rw [List.mem_map] at hc
      obtain ⟨j, hj, rfl⟩ := hc
      have hjb := List.mem_range'_1.mp hj
      rcases hjb with ⟨hjlo, hjhi⟩
      refine ⟨le_refl _, by omega, ?_⟩
      have : min (L0 + 1) j ≤ j := min_le_right _ _
      omega

/-- On a self-alignment the tracked maximum is `L * match_score`,
found at cell `(L, L)`. -/
theorem maxCell_self (S : List Nat) (P : ScoringParams) (bw : Option Nat)
    (hS : S ≠ []) (hm : 0 < P.match_score) (hmm : P.mismatch_score < 0)
    (hgo : P.gap_open < 0) (hge : P.gap_extend < 0) :
    maxCell S S P bw = ⟨(S.length : Int) * P.match_score, S.length, S.length⟩ := by
  have hL : 1 ≤ S.length := List.length_pos.mpr hS
  obtain ⟨front, hdecomp, hfront⟩ := scanList_self_decomp bw S.length hL
  have hVpos : (0 : Int) < (S.length : Int) * P.match_score := by
    have : (0 : Int) < (S.length : Int) := by exact_mod_cast hL
    exact mul_pos this hm
  rw [maxCell, hdecomp, List.foldl_append]
  have hfold : (front.foldl (maxStep (matFull S S P bw)) ⟨0, 0, 0⟩).best <
      (S.length : Int) * P.match_score := by
    apply foldl_maxStep_lt
    · intro c hc
      obtain ⟨h1, h2, hmin⟩ := hfront c hc
      rw [cellAt_matFull]
      have hb := (cellM_le_bound S S P bw hm hmm hgo hge c.1 c.2).1
      have hlt : ((min c.1 c.2 : Nat) : Int) * P.match_score <
          (S.length : Int) * P.match_score := by
        have hcast : ((min c.1 c.2 : Nat) : Int) < (S.length : Int) := by exact_mod_cast hmin
        exact mul_lt_mul_of_pos_right hcast hm
      linarith
    · exact hVpos
  have hLL : (cellAt (matFull S S P bw) S.length S.length).h =
      (S.length : Int) * P.match_score := by
    rw [cellAt_matFull]
    exact cell_diag_self S P bw hm hmm hgo hge S.length (le_refl _)
  simp only [List.foldl_cons, List.foldl_nil, maxStep, hLL]
  rw [if_pos hfold]

/-- Extra fuel beyond `ci + cj` does not change the traceback. -/
theorem tbAux_fuel (q t : List Nat) (P : ScoringParams) (bw : Option Nat)
    (mat : List (List Cell)) :
    ∀ (fuel : Nat) (s : TbState), s.ci + s.cj ≤ fuel →
      tbAux q t P bw mat (fuel + 1) s = tbAux q t P bw mat fuel s := by
  intro fuel
  induction fuel with
  | zero =>
    intro s hs
    have hci : s.ci = 0 := by omega
    show tbStep q t P bw mat (tbAux q t P bw mat 0) s = s
    unfold tbStep
    rw [if_pos (Or.inl hci)]
  | succ fuel ih =>
    intro s hs
    show tbStep q t P bw mat (tbAux q t P bw mat (fuel + 1)) s =
      tbStep q t P bw mat (tbAux q t P bw mat fuel) s
    unfold tbStep
    split
    · rfl
    · next hstop =>
      have hci : s.ci ≠ 0 := fun h => hstop (Or.inl h)
      have hcj : s.cj ≠ 0 := fun h => hstop (Or.inr (Or.inl h))
      split
      · split
        · exact ih ⟨s.ci - 1, s.cj - 1, s.ma + 1, s.mm, s.g⟩ (by simp; omega)
        · exact ih ⟨s.ci - 1, s.cj - 1, s.ma, s.mm + 1, s.g⟩ (by simp; omega)
      · exact ih ⟨s.ci - 1, s.cj, s.ma, s.mm, s.g + 1⟩ (by simp; omega)
      · exact ih ⟨s.ci, s.cj - 1, s.ma, s.mm, s.g + 1⟩ (by simp; omega)
      · rfl

/-- On a self-alignment the traceback walks the main diagonal from
`(i, i)` down to the origin, counting `i` matches. -/
theorem tb_self (S : List Nat) (P : ScoringParams) (bw : Option Nat)
    (hm : 0 < P.match_score) (hmm : P.mismatch_score < 0)
    (hgo : P.gap_open < 0) (hge : P.gap_extend < 0) :
    ∀ i, i ≤ S.length → ∀ ma mm g,
      tbAux S S P bw (matFull S S P bw) (i + i) ⟨i, i, ma, mm, g⟩ =
        ⟨0, 0, ma + i, mm, g⟩ := by
  intro i
  induction i with
  | zero =>
    intro _ ma mm g
    show (⟨0, 0, ma, mm, g⟩ : TbState) = ⟨0, 0, ma + 0, mm, g⟩
    simp
  | succ i ih =>
    intro hle ma mm g
    have hfe : (i + 1) + (i + 1) = (i + i + 1) + 1 := by omega
    rw [hfe]
    show tbStep S S P bw (matFull S S P bw) (tbAux S S P bw (matFull S S P bw) (i + i + 1))
      ⟨i + 1, i + 1, ma, mm, g⟩ = ⟨0, 0, ma + (i + 1), mm, g⟩
    have hcell : (cellAt (matFull S S P bw) (i + 1) (i + 1)).h =
        ((i + 1 : Nat) : Int) * P.match_score := by
      rw [cellAt_matFull]
      exact cell_diag_self S P bw hm hmm hgo hge (i + 1) hle
    have hdiagc : (cellAt (matFull S S P bw) i i).h = ((i : Nat) : Int) * P.match_score := by
      rw [cellAt_matFull]
      exact cell_diag_self S P bw hm hmm hgo hge i (by omega)
    have hpos : (cellAt (matFull S S P bw) (i + 1) (i + 1)).h > 0 := by
      rw [hcell]
      have : (0 : Int) < ((i + 1 : Nat) : Int) := by exact_mod_cast Nat.succ_pos i
      exact mul_pos this hm
    have hsv : sVal S S P (i + 1) (i + 1) = P.match_score := by
      unfold sVal
      rw [if_pos rfl]
    have htr : traceAt S S P bw (matFull S S P bw) (i + 1) (i + 1) = TraceOp.matchStep := by
      unfold traceAt
      rw [if_pos (inBand_diag bw S.length (i + 1) (by omega) hle)]
      simp only [Nat.add_sub_cancel]
      rw [if_neg (by omega), if_pos (by rw [hcell, hdiagc, hsv]; push_cast; ring)]
    unfold tbStep
    rw [if_neg (by push_neg; exact ⟨Nat.succ_ne_zero i, Nat.succ_ne_zero i, hpos⟩)]
    rw [htr]
    show (if toUpper (S.getD (i + 1 - 1) 0) = toUpper (S.getD (i + 1 - 1) 0) then
        tbAux S S P bw (matFull S S P bw) (i + i + 1) ⟨i + 1 - 1, i + 1 - 1, ma + 1, mm, g⟩
      else tbAux S S P bw (matFull S S P bw) (i + i + 1) ⟨i + 1 - 1, i + 1 - 1, ma, mm + 1, g⟩)
      = ⟨0, 0, ma + (i + 1), mm, g⟩
    rw [if_pos rfl]
    simp only [Nat.add_sub_cancel]
    rw [tbAux_fuel S S P bw (matFull S S P bw) (i + i) ⟨i, i, ma + 1, mm, g⟩ (by simp)]
    rw [ih (by omega) (ma + 1) mm g]
    have : ma + 1 + i = ma + (i + 1) := by omega
    rw [this]

/-- Self-alignment, for any band width: score `L * match_score`, full
spans, `L` matches and no mismatches or gaps. -/
theorem swl_self (S : List Nat) (P : ScoringParams) (bw : Option Nat)
    (hS : S ≠ []) (hm : 0 < P.match_score) (hmm : P.mismatch_score < 0)
    (hgo : P.gap_open < 0) (hge : P.gap_extend < 0) :
    smith_waterman_local S S P bw 0 =
      Option.some ⟨(S.length : Int) * P.match_score, 0, S.length, 0, S.length,
        S.length, 0, 0, S.length⟩ := by
  have hL : 1 ≤ S.length := List.length_pos.mpr hS
  have hmx := maxCell_self S P bw hS hm hmm hgo hge
  have hVpos : (0 : Int) < (S.length : Int) * P.match_score := by
    have : (0 : Int) < (S.length : Int) := by exact_mod_cast hL
    exact mul_pos this hm
  have htb := tb_self S P bw hm hmm hgo hge S.length (le_refl _) 0 0 0
  simp only [smith_waterman_local]
  rw [if_neg (by omega)]
  rw [if_neg (by rw [hmx]; simp only []; omega)]
  have hres : swResult S S P bw =
      ⟨(S.length : Int) * P.match_score, 0, S.length, 0, S.length,
        S.length, 0, 0, S.length⟩ := by
    simp only [swResult, traceRes, hmx]
    rw [htb]
    simp
  rw [hres]

/-!  A band at least as wide as both sequences covers the whole matrix,
so the banded aligner coincides with the unbanded one. -/

theorem bandBounds_full (w n m i : Nat) (hw : max n m ≤ w) (hi1 : 1 ≤ i) (hi : i ≤ n) :
    bandBounds (Option.some w) n m i = (1, m + 1) := by
  have hn : 0 < n := by omega
  have hcenter : (if n ≤ m then i * m / n else i) ≤ max n m := by
    split
    · calc i * m / n ≤ n * m / n := Nat.div_le_div_right (Nat.mul_le_mul_right m hi)
        _ = m := Nat.mul_div_cancel_left m hn
        _ ≤ max n m := le_max_right n m
    · exact le_trans hi (le_max_left n m)
  simp only [bandBounds]
  have h1 : max ((if n ≤ m then i * m / n else i) - w) 1 = 1 := by
    rw [Nat.sub_eq_zero_of_le (le_trans hcenter hw)]
    simp
  have h2 : min ((if n ≤ m then i * m / n else i) + w + 1) (m + 1) = m + 1 := by
    rw [Nat.min_eq_right]
    have hm : m ≤ w := le_trans (le_max_right n m) hw
    omega
  rw [h1, h2]

theorem inBand_full (w n m : Nat) (hw : max n m ≤ w) :
    ∀ i j, inBand (Option.some w) n m i j = inBand Option.none n m i j := by
  intro i j
  by_cases hi : 1 ≤ i ∧ i ≤ n
  · rw [inBand, inBand, bandBounds_full w n m i hw hi.1 hi.2,
      show bandBounds Option.none n m i = (1, m + 1) from rfl]
  · simp only [inBand, decide_eq_decide]
    constructor
    · intro h; exact absurd ⟨h.1, h.2.1⟩ hi
    · intro h; exact absurd ⟨h.1, h.2.1⟩ hi

theorem buildRowAux_congr (q t : List Nat) (P : ScoringParams) (bw1 bw2 : Option Nat)
    (hband : ∀ i j, inBand bw1 q.length t.length i j = inBand bw2 q.length t.length i j)
    (prev : List Cell) (i : Nat) :
    ∀ j, buildRowAux q t P bw1 prev i j = buildRowAux q t P bw2 prev i j := by
  intro j
  induction j with
  | zero => rfl
  | succ j ih => simp only [buildRowAux, ih, hband]

theorem matRow_full (q t : List Nat) (P : ScoringParams) (w : Nat)
    (hw : max q.length t.length ≤ w) :
    ∀ i, matRow q t P (Option.some w) i = matRow q t P Option.none i := by
  intro i
  induction i with
  | zero => rfl
  | succ i ih =>
    show buildRowAux q t P (Option.some w) (matRow q t P (Option.some w) i) (i + 1) t.length =
      buildRowAux q t P Option.none (matRow q t P Option.none i) (i + 1) t.length
    rw [ih]
    exact buildRowAux_congr q t P (Option.some w) Option.none
      (inBand_full w q.length t.length hw) (matRow q t P Option.none i) (i + 1) t.length

theorem matFull_full (q t : List Nat) (P : ScoringParams) (w : Nat)
    (hw : max q.length t.length ≤ w) :
    matFull q t P (Option.some w) = matFull q t P Option.none := by
  rw [matFull_eq, matFull_eq]
  exact List.map_congr_left fun i _ => matRow_full q t P w hw i

theorem flatMap_congr_mem (l : List α) (f g : α → List β) (h : ∀ x ∈ l, f x = g x) :
    l.flatMap f = l.flatMap g := by
  induction l with
  | nil => rfl
  | cons x xs ih =>
    simp only [List.flatMap_cons]
    rw [h x (List.mem_cons_self x xs), ih fun y hy => h y (List.mem_cons_of_mem x hy)]

theorem scanList_full (w n m : Nat) (hw : max n m ≤ w) :
    scanList (Option.some w) n m = scanList Option.none n m := by
  unfold scanList
  refine flatMap_congr_mem _ _ _ ?_
  intro i0 hi0
  have hi0n : i0 < n := List.mem_range.mp hi0
  rw [rowCells, rowCells, bandBounds_full w n m (i0 + 1) hw (by omega) (by omega),
    show bandBounds Option.none n m (i0 + 1) = (1, m + 1) from rfl]

theorem traceAt_full (q t : List Nat) (P : ScoringParams) (w : Nat)
    (mat : List (List Cell)) (hw : max q.length t.length ≤ w) :
    ∀ i j, traceAt q t P (Option.some w) mat i j = traceAt q t P Option.none mat i j := by
  intro i j
  unfold traceAt
  rw [inBand_full w q.length t.length hw]

theorem tbAux_full (q t : List Nat) (P : ScoringParams) (w : Nat)
    (mat : List (List Cell)) (hw : max q.length t.length ≤ w) :
    ∀ fuel s, tbAux q t P (Option.some w) mat fuel s = tbAux q t P Option.none mat fuel s := by
  intro fuel
  induction fuel with
  | zero => intro s; rfl
  | succ fuel ih =>
    intro s
    show tbStep q t P (Option.some w) mat (tbAux q t P (Option.some w) mat fuel) s =
      tbStep q t P Option.none mat (tbAux q t P Option.none mat fuel) s
    unfold tbStep
    rw [traceAt_full q t P w mat hw]
    split
    · rfl
    · split
      · split
        · exact ih _
        · exact ih _
      · exact ih _
      · exact ih _
      · rfl

/-- With a band at least as wide as both sequences, banded and unbanded
alignment return identical results. -/
theorem swl_cover (q t : List Nat) (P : ScoringParams) (w : Nat) (ms : Int)
    (hw : max q.length t.length ≤ w) :
    smith_waterman_local q t P (Option.some w) ms = smith_waterman_local q t P Option.none ms := by
  have hmat := matFull_full q t P w hw
  have hscan := scanList_full w q.length t.length hw
  have hmax : maxCell q t P (Option.some w) = maxCell q t P Option.none := by
    rw [maxCell, maxCell, hmat, hscan]
  have htrace : traceRes q t P (Option.some w) = traceRes q t P Option.none := by
    rw [traceRes, traceRes, hmax, hmat, tbAux_full q t P w (matFull q t P Option.none) hw]
  have hres : swResult q t P (Option.some w) = swResult q t P Option.none := by
    rw [swResult, swResult, hmax, htrace]
  simp only [smith_waterman_local]
  rw [hmax, hres]

/-!  Bounds for the derived metrics. -/

theorem percentIdentity_bounds (r : AlignmentResult)
    (hma : r.matchCount ≤ r.alignment_length) :
    0 ≤ percentIdentity r ∧ percentIdentity r ≤ 100 := by
  unfold percentIdentity
  split
  · exact ⟨le_refl 0, by norm_num⟩
  · next hne =>
    rw [Rat.mkRat_eq_div]
    push_cast
    have hlen : (0 : ℚ) < (r.alignment_length : ℚ) :=
      Nat.cast_pos.mpr (Nat.pos_of_ne_zero hne)
    have hle : ((r.matchCount : ℚ)) ≤ (r.alignment_length : ℚ) := Nat.cast_le.mpr hma
    constructor
    · positivity
    · rw [div_le_iff hlen]
      linarith

theorem queryCoverage_bounds (r : AlignmentResult) (qlen : Nat)
    (hq : r.query_end - r.query_start ≤ qlen) :
    0 ≤ queryCoverage r qlen ∧ queryCoverage r qlen ≤ 100 := by
  unfold queryCoverage
  split
  · exact ⟨le_refl 0, by norm_num⟩
  · next hne =>
    rw [Rat.mkRat_eq_div]
    push_cast
    have hlen : (0 : ℚ) < (qlen : ℚ) := Nat.cast_pos.mpr (Nat.pos_of_ne_zero hne)
    have hle : (((r.query_end - r.query_start : Nat)) : ℚ) ≤ (qlen : ℚ) := Nat.cast_le.mpr hq
    constructor
    · positivity
    · rw [div_le_iff hlen]
      push_cast
      linarith

/-- C1: aligning any non-empty sequence against itself, with
conventional scoring parameters, no band and `min_score = 0`, yields
score `L * match_score`, `L` matches, no mismatches or gaps, full
spans, and both derived metrics at 100. -/
theorem claim_C1 (S : List Nat) (P : ScoringParams)
    (hS : S ≠ []) (hm : 0 < P.match_score) (hmm : P.mismatch_score < 0)
    (hgo : P.gap_open < 0) (hge : P.gap_extend < 0) :
    smith_waterman_local S S P Option.none 0 =
      Option.some ⟨(S.length : Int) * P.match_score, 0, S.length, 0, S.length,
        S.length, 0, 0, S.length⟩ ∧
    percentIdentity ⟨(S.length : Int) * P.match_score, 0, S.length, 0, S.length,
        S.length, 0, 0, S.length⟩ = 100 ∧
    queryCoverage ⟨(S.length : Int) * P.match_score, 0, S.length, 0, S.length,
        S.length, 0, 0, S.length⟩ S.length = 100 := by
  have hL : S.length ≠ 0 := fun h => hS (List.length_eq_zero.mp h)
  have hcast : ((S.length : Nat) : ℚ) ≠ 0 := Nat.cast_ne_zero.mpr hL
  refine ⟨swl_self S P Option.none hS hm hmm hgo hge, ?_, ?_⟩
  · unfold percentIdentity
    rw [if_neg hL, Rat.mkRat_eq_div]
    push_cast
    field_simp
  · unfold queryCoverage
    rw [if_neg hL, Rat.mkRat_eq_div]
    simp only [Nat.sub_zero]
    push_cast
    field_simp

/-- Witness for C1 on `ACGT` with the default scoring parameters. -/
theorem claim_C1_witness :
    smith_waterman_local [65, 67, 71, 84] [65, 67, 71, 84] defaultScoring Option.none 0 =
      Option.some ⟨8, 0, 4, 0, 4, 4, 0, 0, 4⟩ ∧
    percentIdentity ⟨8, 0, 4, 0, 4, 4, 0, 0, 4⟩ = 100 ∧
    queryCoverage ⟨8, 0, 4, 0, 4, 4, 0, 0, 4⟩ 4 = 100 := by
  have h := claim_C1 [65, 67, 71, 84] defaultScoring (by decide) (by decide) (by decide)
    (by decide) (by decide)
  norm_num at h
  exact h

/-- C6: an empty query or an empty target makes `smith_waterman_local`
return the absent result, whatever the scoring parameters, band width
and minimum score are. -/
theorem claim_C6 (q t : List Nat) (P : ScoringParams) (bw : Option Nat) (ms : Int)
    (h : q.length = 0 ∨ t.length = 0) :
    smith_waterman_local q t P bw ms = Option.none := by
  simp only [smith_waterman_local]
  rw [if_pos h]

/-- Witness for C6 at the concrete input of the source test
`test_empty_query`. -/
theorem claim_C6_witness :
    smith_waterman_local [] [65, 67, 71, 84] defaultScoring Option.none 0 = Option.none :=
  claim_C6 [] [65, 67, 71, 84] defaultScoring Option.none 0 (Or.inl rfl)

/-- C4: for non-empty inputs, `min_score` is an inclusive lower bound:
the aligner returns an absent result exactly when the best
dynamic-programming score is strictly below the threshold, so a pair
whose best score equals `m` passes at threshold `m` and fails at
`m + 1`. -/
theorem claim_C4 (q t : List Nat) (P : ScoringParams) (bw : Option Nat) (ms : Int)
    (hq : q ≠ []) (ht : t ≠ []) :
    (smith_waterman_local q t P bw ms = Option.none ↔ (maxCell q t P bw).best < ms) ∧
    ((maxCell q t P bw).best = ms →
      (smith_waterman_local q t P bw ms).isSome = true ∧
      smith_waterman_local q t P bw (ms + 1) = Option.none) := by
  have hq0 : ¬ q.length = 0 := fun h => hq (List.length_eq_zero.mp h)
  have ht0 : ¬ t.length = 0 := fun h => ht (List.length_eq_zero.mp h)
  refine ⟨?_, ?_⟩
  · simp only [smith_waterman_local]
    rw [if_neg (by tauto)]
    by_cases hlt : (maxCell q t P bw).best < ms
    · simp [hlt]
    · simp [hlt]
  · intro heq
    constructor
    · simp only [smith_waterman_local]
      rw [if_neg (by tauto), if_neg (by omega)]
      rfl
    · simp only [smith_waterman_local]
      rw [if_neg (by tauto), if_pos (by omega)]

/-- Witness for C4: `ACGT` against itself has best score 8; threshold 8
passes and threshold 9 fails. -/
theorem claim_C4_witness :
    (smith_waterman_local [65, 67, 71, 84] [65, 67, 71, 84] defaultScoring Option.none 8).isSome
      = true ∧
    smith_waterman_local [65, 67, 71, 84] [65, 67, 71, 84] defaultScoring Option.none 9 =
      Option.none := by
  have h := claim_C4 [65, 67, 71, 84] [65, 67, 71, 84] defaultScoring Option.none 8
    (by decide) (by decide)
  have h8 := h.2 (by decide)
  exact ⟨h8.1, h8.2⟩

/-- C5 counterexample: for `A` against `C` every cell clamps to zero
(best score 0), yet with `min_score = 0` the aligner returns a
populated (degenerate) result, not the absent result the claim
predicts. -/
theorem claim_C5_counterexample :
    (maxCell [65] [67] defaultScoring Option.none).best = 0 ∧
    smith_waterman_local [65] [67] defaultScoring Option.none 0 =
      Option.some ⟨0, 0, 0, 0, 0, 0, 0, 0, 0⟩ := by decide

/-- C5 amended: with `min_score = 0` the aligner never returns the
absent result on non-empty inputs, because the tracked best score
starts at 0 and the threshold test is strict; `min_score = 1` is the
setting that expresses "any positive alignment qualifies". -/
theorem claim_C5_amended (q t : List Nat) (P : ScoringParams) (bw : Option Nat)
    (hq : q ≠ []) (ht : t ≠ []) :
    (smith_waterman_local q t P bw 0).isSome = true := by
  have hq0 : ¬ q.length = 0 := fun h => hq (List.length_eq_zero.mp h)
  have ht0 : ¬ t.length = 0 := fun h => ht (List.length_eq_zero.mp h)
  simp only [smith_waterman_local]
  rw [if_neg (by tauto), if_neg (not_lt.mpr (maxCell_best_nonneg q t P bw))]
  rfl

/-- Witness for the amended C5 at all-mismatch input `A` vs `C`. -/
theorem claim_C5_witness :
    (smith_waterman_local [65] [67] defaultScoring Option.none 0).isSome = true :=
  claim_C5_amended [65] [67] defaultScoring Option.none (by decide) (by decide)

/-- C2: `align_both_strands` runs the aligner on the target and on the
reverse complement of the target; with both results present the
reverse-complement one is returned (flagged `true`) only on a strictly
greater score, ties going to the forward strand; with one result
present it is returned with the matching flag; with none, nothing. -/
theorem claim_C2 (q t : List Nat) (P : ScoringParams) (bw : Option Nat) (ms : Int) :
    (∀ f r, smith_waterman_local q t P bw ms = Option.some f →
      smith_waterman_local q (strBytes (reverse_complement t)) P bw ms = Option.some r →
      ((f.score < r.score → align_both_strands q t P bw ms = Option.some (r, true)) ∧
       (r.score ≤ f.score → align_both_strands q t P bw ms = Option.some (f, false)))) ∧
    (∀ f, smith_waterman_local q t P bw ms = Option.some f →
      smith_waterman_local q (strBytes (reverse_complement t)) P bw ms = Option.none →
      align_both_strands q t P bw ms = Option.some (f, false)) ∧
    (∀ r, smith_waterman_local q t P bw ms = Option.none →
      smith_waterman_local q (strBytes (reverse_complement t)) P bw ms = Option.some r →
      align_both_strands q t P bw ms = Option.some (r, true)) ∧
    (smith_waterman_local q t P bw ms = Option.none →
      smith_waterman_local q (strBytes (reverse_complement t)) P bw ms = Option.none →
      align_both_strands q t P bw ms = Option.none) := by
  refine ⟨?_, ?_, ?_, ?_⟩
  · intro f r hf hr
    constructor
    · intro hlt
      simp only [align_both_strands, hf, hr]
      rw [if_pos hlt]
    · intro hle
      simp only [align_both_strands, hf, hr]
      rw [if_neg (not_lt.mpr hle)]
  · intro f hf hr
    simp only [align_both_strands, hf, hr]
  · intro r hf hr
    simp only [align_both_strands, hf, hr]
  · intro hf hr
    simp only [align_both_strands, hf, hr]

/-- Witness for C2: query `A` against target `T` with threshold 1; the
forward strand fails, the reverse complement (again `A`) succeeds, and
the reverse-complement result is returned with flag `true`. -/
theorem claim_C2_witness :
    align_both_strands [65] [84] defaultScoring Option.none 1 =
      Option.some (⟨2, 0, 1, 0, 1, 1, 0, 0, 1⟩, true) := by
  have h := claim_C2 [65] [84] defaultScoring Option.none 1
  exact h.2.2.1 ⟨2, 0, 1, 0, 1, 1, 0, 0, 1⟩ (by decide) (by decide)

/-- C10: every populated result satisfies the span and counter
invariants, and the two derived metrics lie in `[0, 100]` (for the
coverage, with respect to the query length the aligner was called
with), each degenerating to 0 on a zero denominator. -/
theorem claim_C10 (q t : List Nat) (P : ScoringParams) (bw : Option Nat) (ms : Int)
    (r : AlignmentResult) (h : smith_waterman_local q t P bw ms = Option.some r) :
    r.query_start ≤ r.query_end ∧ r.target_start ≤ r.target_end ∧
    r.alignment_length = r.matchCount + r.mismatches + r.gaps ∧
    0 ≤ percentIdentity r ∧ percentIdentity r ≤ 100 ∧
    0 ≤ queryCoverage r q.length ∧ queryCoverage r q.length ≤ 100 ∧
    (r.alignment_length = 0 → percentIdentity r = 0) ∧
    (q.length = 0 → queryCoverage r q.length = 0) := by
  simp only [smith_waterman_local] at h
  by_cases hz : q.length = 0 ∨ t.length = 0
  · rw [if_pos hz] at h; exact absurd h (by simp)
  · rw [if_neg hz] at h
    by_cases hlt : (maxCell q t P bw).best < ms
    · rw [if_pos hlt] at h; exact absurd h (by simp)
    · rw [if_neg hlt] at h
      have hr : r = swResult q t P bw := by
        have := Option.some.inj h
        exact this.symm
      subst hr
      have htb := tbAux_le q t P bw (matFull q t P bw)
        ((maxCell q t P bw).bi + (maxCell q t P bw).bj)
        ⟨(maxCell q t P bw).bi, (maxCell q t P bw).bj, 0, 0, 0⟩
      have hciq : (traceRes q t P bw).ci ≤ (maxCell q t P bw).bi := htb.1
      have hcjt : (traceRes q t P bw).cj ≤ (maxCell q t P bw).bj := htb.2
      have hbnds := maxCell_bi_le q t P bw
      refine ⟨hciq, hcjt, rfl, ?_, ?_, ?_, ?_, ?_, ?_⟩
      · exact (percentIdentity_bounds (swResult q t P bw) (by simp [swResult]; omega)).1
      · exact (percentIdentity_bounds (swResult q t P bw) (by simp [swResult]; omega)).2
      · refine (queryCoverage_bounds (swResult q t P bw) q.length ?_).1
        show (maxCell q t P bw).bi - (traceRes q t P bw).ci ≤ q.length
        omega
      · refine (queryCoverage_bounds (swResult q t P bw) q.length ?_).2
        show (maxCell q t P bw).bi - (traceRes q t P bw).ci ≤ q.length
        omega
      · intro hzero
        simp [percentIdentity, hzero]
      · intro hzero
        simp [queryCoverage, hzero]

/-- Witness for C10 at the single-base match `A` vs `A`. -/
theorem claim_C10_witness :
    0 ≤ percentIdentity ⟨2, 0, 1, 0, 1, 1, 0, 0, 1⟩ ∧
    percentIdentity ⟨2, 0, 1, 0, 1, 1, 0, 0, 1⟩ ≤ 100 ∧
    queryCoverage ⟨2, 0, 1, 0, 1, 1, 0, 0, 1⟩ 1 ≤ 100 := by
  have h := claim_C10 [65] [65] defaultScoring Option.none 0 ⟨2, 0, 1, 0, 1, 1, 0, 0, 1⟩
    (by decide)
  exact ⟨h.2.2.2.1, h.2.2.2.2.1, h.2.2.2.2.2.2.1⟩

/-- Unbanded result on the single-mismatch instance
`ACGTACGTA` vs `ACGTCCGTA`. -/
theorem swl_mismatch_unbanded :
    smith_waterman_local [65, 67, 71, 84, 65, 67, 71, 84, 65] [65, 67, 71, 84, 67, 67, 71, 84, 65] defaultScoring
      Option.none 0 = Option.some (AlignmentResult.mk 13 0 9 0 9 8 1 0 9) := by decide

/-- Unbanded result on the single-base-gap instance
`ACGTACGTACGT` vs `ACGTAACGTACGT` (the pair used by the source test
`test_banded_vs_unbanded_with_gap`). -/
theorem swl_gap_unbanded :
    smith_waterman_local [65, 67, 71, 84, 65, 67, 71, 84, 65, 67, 71, 84] [65, 67, 71, 84, 65, 65, 67, 71, 84, 65, 67, 71, 84]
      defaultScoring Option.none 0 = Option.some (AlignmentResult.mk 17 0 13 0 12 12 0 1 13) := by decide

/-- C9: for every band width `w ≥ 5`, banded alignment agrees with
unbanded alignment on score, matches, mismatches and gaps for the
spec's in-band cases: identical sequences (proved for every non-empty
sequence and all conventional scoring parameters), a single-mismatch
pair, and a single-base-gap pair. -/
theorem claim_C9 (w : Nat) (hw : 5 ≤ w) :
    (∀ (S : List Nat) (P : ScoringParams), S ≠ [] → 0 < P.match_score →
      P.mismatch_score < 0 → P.gap_open < 0 → P.gap_extend < 0 →
      (smith_waterman_local S S P (Option.some w) 0).map resFields =
        (smith_waterman_local S S P Option.none 0).map resFields) ∧
    (smith_waterman_local [65, 67, 71, 84, 65, 67, 71, 84, 65] [65, 67, 71, 84, 67, 67, 71, 84, 65] defaultScoring
        (Option.some w) 0).map resFields =
      (smith_waterman_local [65, 67, 71, 84, 65, 67, 71, 84, 65] [65, 67, 71, 84, 67, 67, 71, 84, 65] defaultScoring
        Option.none 0).map resFields ∧
    (smith_waterman_local [65, 67, 71, 84, 65, 67, 71, 84, 65, 67, 71, 84] [65, 67, 71, 84, 65, 65, 67, 71, 84, 65, 67, 71, 84]
        defaultScoring (Option.some w) 0).map resFields =
      (smith_waterman_local [65, 67, 71, 84, 65, 67, 71, 84, 65, 67, 71, 84] [65, 67, 71, 84, 65, 65, 67, 71, 84, 65, 67, 71, 84]
        defaultScoring Option.none 0).map resFields := by
  refine ⟨?_, ?_, ?_⟩
  · intro S P hS hm hmm hgo hge
    rw [swl_self S P (Option.some w) hS hm hmm hgo hge,
      swl_self S P Option.none hS hm hmm hgo hge]
  · rcases Nat.lt_or_ge w 9 with hlt | hge
    · interval_cases w
      · rw [show smith_waterman_local [65, 67, 71, 84, 65, 67, 71, 84, 65] [65, 67, 71, 84, 67, 67, 71, 84, 65] defaultScoring
            (Option.some 5) 0 = Option.some (AlignmentResult.mk 13 0 9 0 9 8 1 0 9) from by decide,
          swl_mismatch_unbanded]
      · rw [show smith_waterman_local [65, 67, 71, 84, 65, 67, 71, 84, 65] [65, 67, 71, 84, 67, 67, 71, 84, 65] defaultScoring
            (Option.some 6) 0 = Option.some (AlignmentResult.mk 13 0 9 0 9 8 1 0 9) from by decide,
          swl_mismatch_unbanded]
      · rw [show smith_waterman_local [65, 67, 71, 84, 65, 67, 71, 84, 65] [65, 67, 71, 84, 67, 67, 71, 84, 65] defaultScoring
            (Option.some 7) 0 = Option.some (AlignmentResult.mk 13 0 9 0 9 8 1 0 9) from by decide,
          swl_mismatch_unbanded]
      · rw [show smith_waterman_local [65, 67, 71, 84, 65, 67, 71, 84, 65] [65, 67, 71, 84, 67, 67, 71, 84, 65] defaultScoring
            (Option.some 8) 0 = Option.some (AlignmentResult.mk 13 0 9 0 9 8 1 0 9) from by decide,
          swl_mismatch_unbanded]
    · rw [swl_cover [65, 67, 71, 84, 65, 67, 71, 84, 65] [65, 67, 71, 84, 67, 67, 71, 84, 65] defaultScoring w 0
        (by simp; omega)]
  · rcases Nat.lt_or_ge w 13 with hlt | hge
    · interval_cases w
      · rw [show smith_waterman_local [65, 67, 71, 84, 65, 67, 71, 84, 65, 67, 71, 84] [65, 67, 71, 84, 65, 65, 67, 71, 84, 65, 67, 71, 84]
            defaultScoring (Option.some 5) 0 = Option.some (AlignmentResult.mk 17 0 13 0 12 12 0 1 13) from by decide,
          swl_gap_unbanded]
      · rw [show smith_waterman_local [65, 67, 71, 84, 65, 67, 71, 84, 65, 67, 71, 84] [65, 67, 71, 84, 65, 65, 67, 71, 84, 65, 67, 71, 84]
            defaultScoring (Option.some 6) 0 = Option.some (AlignmentResult.mk 17 0 13 0 12 12 0 1 13) from by decide,
          swl_gap_unbanded]
      · rw [show smith_waterman_local [65, 67, 71, 84, 65, 67, 71, 84, 65, 67, 71, 84] [65, 67, 71, 84, 65, 65, 67, 71, 84, 65, 67, 71, 84]
            defaultScoring (Option.some 7) 0 = Option.some (AlignmentResult.mk 17 0 13 0 12 12 0 1 13) from by decide,
          swl_gap_unbanded]
      · rw [show smith_waterman_local [65, 67, 71, 84, 65, 67, 71, 84, 65, 67, 71, 84] [65, 67, 71, 84, 65, 65, 67, 71, 84, 65, 67, 71, 84]
            defaultScoring (Option.some 8) 0 = Option.some (AlignmentResult.mk 17 0 13 0 12 12 0 1 13) from by decide,
          swl_gap_unbanded]
      · rw [show smith_waterman_local [65, 67, 71, 84, 65, 67, 71, 84, 65, 67, 71, 84] [65, 67, 71, 84, 65, 65, 67, 71, 84, 65, 67, 71, 84]
            defaultScoring (Option.some 9) 0 = Option.some (AlignmentResult.mk 17 0 13 0 12 12 0 1 13) from by decide,
          swl_gap_unbanded]
      · rw [show smith_waterman_local [65, 67, 71, 84, 65, 67, 71, 84, 65, 67, 71, 84] [65, 67, 71, 84, 65, 65, 67, 71, 84, 65, 67, 71, 84]
            defaultScoring (Option.some 10) 0 = Option.some (AlignmentResult.mk 17 0 13 0 12 12 0 1 13) from by decide,
          swl_gap_unbanded]
      · rw [show smith_waterman_local [65, 67, 71, 84, 65, 67, 71, 84, 65, 67, 71, 84] [65, 67, 71, 84, 65, 65, 67, 71, 84, 65, 67, 71, 84]
            defaultScoring (Option.some 11) 0 = Option.some (AlignmentResult.mk 17 0 13 0 12 12 0 1 13) from by decide,
          swl_gap_unbanded]
      · rw [show smith_waterman_local [65, 67, 71, 84, 65, 67, 71, 84, 65, 67, 71, 84] [65, 67, 71, 84, 65, 65, 67, 71, 84, 65, 67, 71, 84]
            defaultScoring (Option.some 12) 0 = Option.some (AlignmentResult.mk 17 0 13 0 12 12 0 1 13) from by decide,
          swl_gap_unbanded]
    · rw [swl_cover [65, 67, 71, 84, 65, 67, 71, 84, 65, 67, 71, 84] [65, 67, 71, 84, 65, 65, 67, 71, 84, 65, 67, 71, 84] defaultScoring w 0
        (by simp; omega)]

/-!  The stable insertion sort: membership and sortedness. -/

theorem mem_orderedInsert (lt : α → α → Bool) (x : α) :
    ∀ (l : List α) (y), y ∈ orderedInsert lt x l ↔ y = x ∨ y ∈ l := by
  intro l
  induction l with
  | nil => intro y; simp [orderedInsert]
  | cons z zs ih =>
    intro y
    show y ∈ (if lt x z then x :: z :: zs else z :: orderedInsert lt x zs) ↔ _
    by_cases h : lt x z = true
    · rw [if_pos h]
      simp [List.mem_cons]
    · rw [if_neg h]
      simp only [List.mem_cons, ih]
      tauto

theorem mem_foldl_orderedInsert (lt : α → α → Bool) :
    ∀ (l acc : List α) (y),
      y ∈ l.foldl (fun acc x => orderedInsert lt x acc) acc ↔ y ∈ acc ∨ y ∈ l := by
  intro l
  induction l with
  | nil => intro acc y; simp
  | cons x xs ih =>
    intro acc y
    rw [List.foldl_cons, ih, mem_orderedInsert]
    simp only [List.mem_cons]
    tauto

theorem mem_stableSort (lt : α → α → Bool) (l : List α) (y : α) :
    y ∈ stableSort lt l ↔ y ∈ l := by
  unfold stableSort
  rw [mem_foldl_orderedInsert]
  simp

theorem sorted_orderedInsert (lt : α → α → Bool)
    (trans : ∀ a b c, lt a b = true → lt b c = true → lt a c = true)
    (asymm : ∀ a b, lt a b = true → lt b a = false) (x : α) :
    ∀ l, l.Pairwise (fun a b => lt b a = false) →
      (orderedInsert lt x l).Pairwise (fun a b => lt b a = false) := by
  intro l
  induction l with
  | nil =>
    intro _
    exact List.pairwise_singleton _ _
  | cons y ys ih =>
    intro hl
    rw [List.pairwise_cons] at hl
    obtain ⟨hy, hys⟩ := hl
    show (if lt x y then x :: y :: ys else y :: orderedInsert lt x ys).Pairwise _
    by_cases hxy : lt x y = true
    · rw [if_pos hxy, List.pairwise_cons]
      constructor
      · intro z hz
        rcases List.mem_cons.mp hz with rfl | hz
        · exact asymm x z hxy
        · cases hzx : lt z x with
          | false => rfl
          | true =>
            have h1 := trans z x y hzx hxy
            rw [hy z hz] at h1
            exact absurd h1 (by simp)
      · exact List.pairwise_cons.mpr ⟨hy, hys⟩
    · rw [if_neg hxy, List.pairwise_cons]
      constructor
      · intro z hz
        rcases (mem_orderedInsert lt x ys z).mp hz with rfl | hz
        · cases hb : lt z y with
          | false => rfl
          | true => exact absurd hb hxy
        · exact hy z hz
      · exact ih hys

theorem sorted_stableSort (lt : α → α → Bool)
    (trans : ∀ a b c, lt a b = true → lt b c = true → lt a c = true)
    (asymm : ∀ a b, lt a b = true → lt b a = false) (l : List α) :
    (stableSort lt l).Pairwise (fun a b => lt b a = false) := by
  unfold stableSort
  have key : ∀ (l acc : List α), acc.Pairwise (fun a b => lt b a = false) →
      (l.foldl (fun acc x => orderedInsert lt x acc) acc).Pairwise
        (fun a b => lt b a = false) := by
    intro l
    induction l with
    | nil => intro acc h; exact h
    | cons x xs ih =>
      intro acc h
      rw [List.foldl_cons]
      exact ih _ (sorted_orderedInsert lt trans asymm x acc h)
  exact key l [] (List.Pairwise.nil)

/-!  The greedy acceptance loop. -/

theorem mem_foldl_accept :
    ∀ (l acc : List AnnotationHit) (h : AnnotationHit),
      h ∈ l.foldl (fun acc hit => if dominatedBy acc hit then acc else acc ++ [hit]) acc →
      h ∈ acc ∨ h ∈ l := by
  intro l
  induction l with
  | nil => intro acc h hm; exact Or.inl hm
  | cons x xs ih =>
    intro acc h hm
    rw [List.foldl_cons] at hm
    rcases ih _ h hm with hacc | hxs
    · by_cases hd : dominatedBy acc x = true
      · rw [if_pos hd] at hacc
        exact Or.inl hacc
      · rw [if_neg hd] at hacc
        rcases List.mem_append.mp hacc with hacc | hone
        · exact Or.inl hacc
        · right
          rw [List.mem_singleton.mp hone]
          exact List.mem_cons_self x xs
    · exact Or.inr (List.mem_cons_of_mem x hxs)

theorem mem_foldl_accept_mono (h : AnnotationHit) :
    ∀ (l acc : List AnnotationHit), h ∈ acc →
      h ∈ l.foldl (fun acc hit => if dominatedBy acc hit then acc else acc ++ [hit]) acc := by
  intro l
  induction l with
  | nil => intro acc hm; exact hm
  | cons x xs ih =>
    intro acc hm
    rw [List.foldl_cons]
    refine ih _ ?_
    by_cases hd : dominatedBy acc x = true
    · rw [if_pos hd]; exact hm
    · rw [if_neg hd]; exact List.mem_append_left _ hm

theorem mem_foldl_accept_of (h : AnnotationHit)
    (hfree : ∀ acc, dominatedBy acc h = false) :
    ∀ (l acc : List AnnotationHit), h ∈ l →
      h ∈ l.foldl (fun acc hit => if dominatedBy acc hit then acc else acc ++ [hit]) acc := by
  intro l
  induction l with
  | nil => intro acc hm; exact absurd hm (List.not_mem_nil h)
  | cons x xs ih =>
    intro acc hm
    rw [List.foldl_cons]
    rcases List.mem_cons.mp hm with rfl | hm
    · apply mem_foldl_accept_mono
      rw [hfree acc, if_neg (by simp)]
      exact List.mem_append_right _ (List.mem_singleton.mpr rfl)
    · exact ih _ hm

theorem accept_foldl_eq_spec :
    ∀ (l acc : List AnnotationHit),
      l.foldl (fun acc hit => if dominatedBy acc hit then acc else acc ++ [hit]) acc =
      specResolve acc l := by
  intro l
  induction l with
  | nil => intro acc; rfl
  | cons h rest ih =>
    intro acc
    rw [List.foldl_cons]
    have hd : dominatedBy acc h = true ↔ ∃ e ∈ acc, overlap_fraction h e > mkRat 1 2 := by
      simp [dominatedBy, List.any_eq_true]
    show _ = specResolve acc (h :: rest)
    by_cases hc : ∃ e ∈ acc, overlap_fraction h e > mkRat 1 2
    · rw [if_pos (hd.mpr hc)]
      rw [show specResolve acc (h :: rest) = specResolve acc rest by
        simp only [specResolve]; rw [if_pos hc]]
      exact ih acc
    · rw [if_neg (by rw [hd]; exact hc)]
      rw [show specResolve acc (h :: rest) = specResolve (acc ++ [h]) rest by
        simp only [specResolve]; rw [if_neg hc]]
      exact ih (acc ++ [h])

/-!  Overlap fractions in degenerate situations. -/

theorem overlap_fraction_zero_len (a b : AnnotationHit)
    (h : a.target_start = a.target_end) : overlap_fraction a b = 0 := by
  unfold overlap_fraction
  rw [if_pos]
  calc min a.target_end b.target_end ≤ a.target_end := min_le_left _ _
    _ = a.target_start := h.symm
    _ ≤ max a.target_start b.target_start := le_max_left _ _

theorem overlap_fraction_disjoint (a b : AnnotationHit)
    (h : a.target_end ≤ b.target_start ∨ b.target_end ≤ a.target_start) :
    overlap_fraction a b = 0 := by
  unfold overlap_fraction
  rw [if_pos]
  rcases h with h | h
  · calc min a.target_end b.target_end ≤ a.target_end := min_le_left _ _
      _ ≤ b.target_start := h
      _ ≤ max a.target_start b.target_start := le_max_right _ _
  · calc min a.target_end b.target_end ≤ b.target_end := min_le_right _ _
      _ ≤ a.target_start := h
      _ ≤ max a.target_start b.target_start := le_max_left _ _

theorem dominatedBy_zero_len (h : AnnotationHit) (hz : h.target_start = h.target_end) :
    ∀ acc, dominatedBy acc h = false := by
  intro acc
  rw [dominatedBy, List.any_eq_false]
  intro e _
  rw [overlap_fraction_zero_len h e hz]
  norm_num

/-- C8: the overlap resolver accepts a candidate exactly when its
overlap fraction (relative to the candidate's own length) with every
already-accepted hit stays at or below one half (the recursive
`specResolve` form of that rule), returns the accepted hits sorted by
`target_start` ascending, never discards a zero-length candidate, and
keeps both hits of a non-overlapping pair. -/
theorem claim_C8 (hits : List AnnotationHit) :
    (resolve_overlaps hits).Pairwise (fun a b => a.target_start ≤ b.target_start) ∧
    (∀ h, h ∈ resolve_overlaps hits ↔ h ∈ specResolve [] hits) ∧
    (∀ h ∈ hits, h.target_start = h.target_end → h ∈ resolve_overlaps hits) ∧
    (∀ a b : AnnotationHit,
      a.target_end ≤ b.target_start ∨ b.target_end ≤ a.target_start →
      a ∈ resolve_overlaps [a, b] ∧ b ∈ resolve_overlaps [a, b]) := by
  have hpair : ∀ (l : List AnnotationHit),
      (resolve_overlaps l).Pairwise (fun a b => a.target_start ≤ b.target_start) := by
    intro l
    have hs := sorted_stableSort
      (fun a b : AnnotationHit => decide (a.target_start < b.target_start))
      (by
        intro a b c h1 h2
        simp only [decide_eq_true_eq] at h1 h2 ⊢
        omega)
      (by
        intro a b h1
        simp only [decide_eq_true_eq] at h1
        simp only [decide_eq_false_iff_not]
        omega)
      (l.foldl (fun acc hit => if dominatedBy acc hit then acc else acc ++ [hit]) [])
    refine List.Pairwise.imp ?_ hs
    intro a b h
    simp only [decide_eq_false_iff_not] at h
    omega
  refine ⟨hpair hits, ?_, ?_, ?_⟩
  · intro h
    show h ∈ stableSort _ _ ↔ _
    rw [mem_stableSort, accept_foldl_eq_spec]
  · intro h hh hz
    show h ∈ stableSort _ _
    rw [mem_stableSort]
    exact mem_foldl_accept_of h (dominatedBy_zero_len h hz) hits [] hh
  · intro a b hdis
    have hstep1 : (if dominatedBy [] a then ([] : List AnnotationHit) else [] ++ [a]) = [a] := by
      rw [show dominatedBy [] a = false from rfl, if_neg (by simp)]
      rfl
    have hnotdom : dominatedBy [a] b = false := by
      rw [dominatedBy, List.any_eq_false]
      intro e he
      rw [List.mem_singleton.mp he]
      rw [overlap_fraction_disjoint b a (Or.symm hdis)]
      norm_num
    have haccepted :
        ([a, b].foldl (fun acc hit => if dominatedBy acc hit then acc else acc ++ [hit]) [])
          = [a, b] := by
      rw [List.foldl_cons, hstep1, List.foldl_cons, List.foldl_nil]
      rw [if_neg (by rw [hnotdom]; simp)]
      rfl
    constructor
    · show a ∈ stableSort _ _
      rw [mem_stableSort, haccepted]
      exact List.mem_cons_self a [b]
    · show b ∈ stableSort _ _
      rw [mem_stableSort, haccepted]
      exact List.mem_cons_of_mem a (List.mem_singleton.mpr rfl)

/-- Witness for C8: the non-overlapping pair from the source test
`test_non_overlapping_hits_kept` both survive overlap resolution. -/
theorem claim_C8_witness :
    (⟨"PartA", 1, "cds", 0, 20, false, 95, 100, 40, Option.none⟩ : AnnotationHit) ∈
      resolve_overlaps [⟨"PartA", 1, "cds", 0, 20, false, 95, 100, 40, Option.none⟩,
        ⟨"PartB", 2, "ori", 100, 150, false, 90, 100, 50, Option.none⟩] ∧
    (⟨"PartB", 2, "ori", 100, 150, false, 90, 100, 50, Option.none⟩ : AnnotationHit) ∈
      resolve_overlaps [⟨"PartA", 1, "cds", 0, 20, false, 95, 100, 40, Option.none⟩,
        ⟨"PartB", 2, "ori", 100, 150, false, 90, 100, 50, Option.none⟩] := by
  have h := claim_C8 []
  exact h.2.2.2 ⟨"PartA", 1, "cds", 0, 20, false, 95, 100, 40, Option.none⟩
    ⟨"PartB", 2, "ori", 100, 150, false, 90, 100, 50, Option.none⟩ (by left; norm_num)

/-!  Provenance of annotation hits. -/

theorem dna_strBytes (s : List Nat) (hd : is_dna_sequence s = true) : strBytes s = s := by
  induction s with
  | nil => rfl
  | cons c cs ih =>
    rw [is_dna_sequence, List.all_cons, Bool.and_eq_true] at hd
    obtain ⟨hc, hcs⟩ := hd
    rw [decide_eq_true_eq] at hc
    have hlt : c < 128 := by
      rcases hc with h | h | h | h <;> (unfold toUpper at h; split at h <;> omega)
    show strBytes (c :: cs) = c :: cs
    rw [strBytes, List.flatMap_cons]
    rw [show utf8Bytes c = [c] by rw [utf8Bytes, if_pos hlt]]
    rw [show cs.flatMap utf8Bytes = cs from ih hcs]
    rfl

theorem mem_foldl_annotateStep (tb : List Nat) (config : AnnotationConfig) :
    ∀ (comps : List Component) (acc : List AnnotationHit) (h : AnnotationHit),
      h ∈ comps.foldl (annotateStep tb config) acc →
      h ∈ acc ∨ ∃ c, c ∈ comps ∧ is_dna_sequence c.sequence = true ∧
        ∃ (aln : AlignmentResult) (is_rc : Bool),
          align_both_strands (strBytes c.sequence) tb config.scoring config.band_width
            config.min_score = Option.some (aln, is_rc) ∧
          config.min_identity ≤ percentIdentity aln ∧
          config.min_coverage ≤ queryCoverage aln (strBytes c.sequence).length ∧
          h = mkHit c tb.length aln is_rc (percentIdentity aln)
            (queryCoverage aln (strBytes c.sequence).length) := by
  intro comps
  induction comps with
  | nil =>
    intro acc h hm
    exact Or.inl hm
  | cons c cs ih =>
    intro acc h hm
    rw [List.foldl_cons] at hm
    rcases ih _ h hm with hacc | ⟨c2, hc2, rest⟩
    · by_cases hdna : is_dna_sequence c.sequence = true
      · simp only [annotateStep] at hacc
        rw [if_neg (fun hcon => hcon hdna)] at hacc
        cases habs : align_both_strands (strBytes c.sequence) tb config.scoring
            config.band_width config.min_score with
        | none =>
          rw [habs] at hacc
          exact Or.inl hacc
        | some pr =>
          obtain ⟨aln, is_rc⟩ := pr
          rw [habs] at hacc
          simp only [] at hacc
          by_cases hfil : config.min_identity ≤ percentIdentity aln ∧
              config.min_coverage ≤ queryCoverage aln (strBytes c.sequence).length
          · rw [if_pos hfil] at hacc
            rcases List.mem_append.mp hacc with hacc | hone
            · exact Or.inl hacc
            · right
              exact ⟨c, List.mem_cons_self c cs, hdna, aln, is_rc, habs, hfil.1, hfil.2,
                List.mem_singleton.mp hone⟩
          · rw [if_neg hfil] at hacc
            exact Or.inl hacc
      · simp only [annotateStep] at hacc
        rw [if_pos hdna] at hacc
        exact Or.inl hacc
    · exact Or.inr ⟨c2, List.mem_cons_of_mem c hc2, rest⟩

theorem annotate_mem (target : List Nat) (circ : Bool) (comps : List Component)
    (config : AnnotationConfig) (h : AnnotationHit)
    (hmem : h ∈ annotate target circ comps config) :
    ∃ c, c ∈ comps ∧ is_dna_sequence c.sequence = true ∧
      ∃ (aln : AlignmentResult) (is_rc : Bool),
        align_both_strands (strBytes c.sequence) (strBytes target) config.scoring
          config.band_width config.min_score = Option.some (aln, is_rc) ∧
        config.min_identity ≤ percentIdentity aln ∧
        config.min_coverage ≤ queryCoverage aln (strBytes c.sequence).length ∧
        h = mkHit c (strBytes target).length aln is_rc (percentIdentity aln)
          (queryCoverage aln (strBytes c.sequence).length) := by
  simp only [annotate] at hmem
  have h1 : h ∈ comps.foldl (annotateStep (strBytes target) config) [] := by
    simp only [resolve_overlaps] at hmem
    rw [mem_stableSort] at hmem
    rcases mem_foldl_accept _ _ _ hmem with h0 | h1
    · exact absurd h0 (List.not_mem_nil h)
    · rw [mem_stableSort] at h1
      exact h1
  rcases mem_foldl_annotateStep (strBytes target) config comps [] h h1 with h0 | hex
  · exact absurd h0 (List.not_mem_nil h)
  · exact hex

/-- C7: every hit produced by `annotate` comes from a component whose
sequence is pure DNA (only A/C/G/T, case-insensitively), and carries a
percent identity and a query coverage that meet the configured
thresholds, the coverage being computed against the component's
sequence length. -/
theorem claim_C7 (target : List Nat) (circ : Bool) (comps : List Component)
    (config : AnnotationConfig) (h : AnnotationHit)
    (hmem : h ∈ annotate target circ comps config) :
    ∃ c, c ∈ comps ∧ is_dna_sequence c.sequence = true ∧
      config.min_identity ≤ h.percent_identity ∧
      config.min_coverage ≤ h.query_coverage ∧
      ∃ aln : AlignmentResult, h.percent_identity = percentIdentity aln ∧
        h.query_coverage = queryCoverage aln c.sequence.length := by
  obtain ⟨c, hc, hdna, aln, is_rc, habs, hid, hcov, heq⟩ :=
    annotate_mem target circ comps config h hmem
  have hlen : (strBytes c.sequence).length = c.sequence.length := by
    rw [dna_strBytes c.sequence hdna]
  subst heq
  refine ⟨c, hc, hdna, hid, hcov, aln, rfl, ?_⟩
  show queryCoverage aln (strBytes c.sequence).length = queryCoverage aln c.sequence.length
  rw [hlen]

/-- Witness for C7: a pure-DNA component `ACGT` matched inside target
`ACGT` with permissive thresholds. -/
theorem claim_C7_witness :
    ∃ c, c ∈ [(⟨1, "FwdPart", "cds", [65, 67, 71, 84], 4, Option.none, Option.none, true,
        Option.none, Option.none⟩ : Component)] ∧
      is_dna_sequence c.sequence = true ∧
      (80 : ℚ) ≤ (⟨"FwdPart", 1, "cds", 0, 4, false, 100, 100, 8, Option.none⟩ :
        AnnotationHit).percent_identity ∧
      (80 : ℚ) ≤ (⟨"FwdPart", 1, "cds", 0, 4, false, 100, 100, 8, Option.none⟩ :
        AnnotationHit).query_coverage ∧
      ∃ aln : AlignmentResult,
        (⟨"FwdPart", 1, "cds", 0, 4, false, 100, 100, 8, Option.none⟩ :
          AnnotationHit).percent_identity = percentIdentity aln ∧
        (⟨"FwdPart", 1, "cds", 0, 4, false, 100, 100, 8, Option.none⟩ :
          AnnotationHit).query_coverage = queryCoverage aln c.sequence.length :=
  claim_C7 [65, 67, 71, 84] false
    [⟨1, "FwdPart", "cds", [65, 67, 71, 84], 4, Option.none, Option.none, true,
      Option.none, Option.none⟩]
    ⟨80, 80, defaultScoring, Option.none, 1⟩
    ⟨"FwdPart", 1, "cds", 0, 4, false, 100, 100, 8, Option.none⟩ (by decide)

/-- C3: every hit's coordinates are the aligner's coordinates, remapped
through `new = target_len - old` (ends swapped) exactly when the
winning strand was the reverse complement, and unchanged otherwise. -/
theorem claim_C3 (target : List Nat) (circ : Bool) (comps : List Component)
    (config : AnnotationConfig) (h : AnnotationHit)
    (hmem : h ∈ annotate target circ comps config) :
    ∃ c, c ∈ comps ∧ ∃ aln : AlignmentResult,
      align_both_strands (strBytes c.sequence) (strBytes target) config.scoring
        config.band_width config.min_score =
          Option.some (aln, h.is_reverse_complement) ∧
      (h.is_reverse_complement = true →
        h.target_start = (strBytes target).length - aln.target_end ∧
        h.target_end = (strBytes target).length - aln.target_start) ∧
      (h.is_reverse_complement = false →
        h.target_start = aln.target_start ∧ h.target_end = aln.target_end) := by
  obtain ⟨c, hc, hdna, aln, is_rc, habs, hid, hcov, heq⟩ :=
    annotate_mem target circ comps config h hmem
  subst heq
  refine ⟨c, hc, aln, habs, ?_, ?_⟩
  · intro htrue
    have hrc : is_rc = true := htrue
    subst hrc
    constructor
    · show (mkHit c (strBytes target).length aln true _ _).target_start = _
      simp [mkHit]
    · show (mkHit c (strBytes target).length aln true _ _).target_end = _
      simp [mkHit]
  · intro hfalse
    have hrc : is_rc = false := hfalse
    subst hrc
    constructor
    · show (mkHit c (strBytes target).length aln false _ _).target_start = _
      simp [mkHit]
    · show (mkHit c (strBytes target).length aln false _ _).target_end = _
      simp [mkHit]

/-- Witness for C3: component `A` found on the reverse complement of
target `T`, with the remapped coordinates `[0, 1)`. -/
theorem claim_C3_witness :
    ∃ c, c ∈ [(⟨1, "RcPart", "cds", [65], 1, Option.none, Option.none, true,
        Option.none, Option.none⟩ : Component)] ∧
      ∃ aln : AlignmentResult,
        align_both_strands (strBytes c.sequence) (strBytes [84]) defaultScoring
          Option.none 1 =
            Option.some (aln, (⟨"RcPart", 1, "cds", 0, 1, true, 100, 100, 2,
              Option.none⟩ : AnnotationHit).is_reverse_complement) ∧
        ((⟨"RcPart", 1, "cds", 0, 1, true, 100, 100, 2, Option.none⟩ :
            AnnotationHit).is_reverse_complement = true →
          (⟨"RcPart", 1, "cds", 0, 1, true, 100, 100, 2, Option.none⟩ :
            AnnotationHit).target_start = (strBytes [84]).length - aln.target_end ∧
          (⟨"RcPart", 1, "cds", 0, 1, true, 100, 100, 2, Option.none⟩ :
            AnnotationHit).target_end = (strBytes [84]).length - aln.target_start) ∧
        ((⟨"RcPart", 1, "cds", 0, 1, true, 100, 100, 2, Option.none⟩ :
            AnnotationHit).is_reverse_complement = false →
          (⟨"RcPart", 1, "cds", 0, 1, true, 100, 100, 2, Option.none⟩ :
            AnnotationHit).target_start = aln.target_start ∧
          (⟨"RcPart", 1, "cds", 0, 1, true, 100, 100, 2, Option.none⟩ :
            AnnotationHit).target_end = aln.target_end) := by
  have h := claim_C3 [84] false
    [⟨1, "RcPart", "cds", [65], 1, Option.none, Option.none, true, Option.none,
      Option.none⟩]
    ⟨80, 80, defaultScoring, Option.none, 1⟩
    ⟨"RcPart", 1, "cds", 0, 1, true, 100, 100, 2, Option.none⟩ (by decide)
  exact h

/-- Witness for C9 at band width 5. -/
theorem claim_C9_witness :
    (smith_waterman_local [65] [65] defaultScoring (Option.some 5) 0).map resFields =
      (smith_waterman_local [65] [65] defaultScoring Option.none 0).map resFields ∧
    (smith_waterman_local [65, 67, 71, 84, 65, 67, 71, 84, 65] [65, 67, 71, 84, 67, 67, 71, 84, 65] defaultScoring
        (Option.some 5) 0).map resFields =
      (smith_waterman_local [65, 67, 71, 84, 65, 67, 71, 84, 65] [65, 67, 71, 84, 67, 67, 71, 84, 65] defaultScoring
        Option.none 0).map resFields ∧
    (smith_waterman_local [65, 67, 71, 84, 65, 67, 71, 84, 65, 67, 71, 84] [65, 67, 71, 84, 65, 65, 67, 71, 84, 65, 67, 71, 84]
        defaultScoring (Option.some 5) 0).map resFields =
      (smith_waterman_local [65, 67, 71, 84, 65, 67, 71, 84, 65, 67, 71, 84] [65, 67, 71, 84, 65, 65, 67, 71, 84, 65, 67, 71, 84]
        defaultScoring Option.none 0).map resFields := by
  have h := claim_C9 5 (by norm_num)
  exact ⟨h.1 [65] defaultScoring (by decide) (by decide) (by decide) (by decide)
    (by decide), h.2.1, h.2.2⟩

end Helix
